import Mathlib

/-!
Shallow embedding of the ClassNamePicker core (StudentModels.py,
PickerConfigManager.py and the save-coalescing part of the main program)
together with proofs of the specification claims.

Bit arrays (`bitarray`) are modelled as `List Bool`; Python dicts holding
JSON data are modelled as association lists; the random draw
`random.randint(0, n-1)` inside `pick` is modelled as an explicit `target`
parameter, assumed `< n` where the claims need it.
-/

namespace ClassNamePicker

/-- `Gender` enum from StudentModels.py. -/
inductive Gender where
  | male
  | female
  | unknown
deriving DecidableEq, Repr

/-- `Student` dataclass: equality and hashing are identity
(`original_name`) based in the source; we keep full structural data and
compare on `original_name` explicitly where the source does. -/
structure Student where
  original_name : String
  display_name : String
  gender : Gender
deriving DecidableEq, Repr

/-! ### Bitmap primitives (`bitarray` operations used by the pool) -/

/-- Bitwise AND of two bitmaps (`a & b`). -/
def band (a b : List Bool) : List Bool := List.zipWith (fun x y => x && y) a b

/-- Bitwise OR of two bitmaps (`a | b`). -/
def bor (a b : List Bool) : List Bool := List.zipWith (fun x y => x || y) a b

/-- Bitwise NOT of a bitmap (`~a`). -/
def bnot (a : List Bool) : List Bool := a.map (fun x => !x)

/-- `bitarray.setall(v)` keeping the length. -/
def setall (a : List Bool) (v : Bool) : List Bool := a.map (fun _ => v)

/-! ### Name-to-index map

`self._name_to_idx = {s.original_name: idx for idx, s in enumerate(all_students)}`:
a dict comprehension, so for duplicate names the last index wins. -/

/-- Index lookup of a name, mirroring the dict comprehension (last
occurrence wins). -/
def nameToIdx (students : List Student) (name : String) : Option Nat :=
  students.enum.foldl
    (fun acc p => if p.2.original_name = name then some p.1 else acc) none

/-! ### The student pool -/

/-- `StudentPool` state: the read-only roster plus the four bitmaps, the
no-duplicate bound and the recent queue (front of the list = oldest). -/
structure StudentPool where
  students : List Student
  femaleBitmap : List Bool
  bitAvailable : List Bool
  bitPicked : List Bool
  noDuplicate : Nat
  recentQueue : List Nat
  recentBitmap : List Bool
deriving DecidableEq, Repr

/-- The female bitmap built in `__init__`: all zero, then each female
student whose name is known sets its bit.  Setting bits is
order-independent, so we express the result directly. -/
def mkFemaleBitmap (students femaleStudents : List Student) : List Bool :=
  femaleStudents.foldl
    (fun bm s =>
      match nameToIdx students s.original_name with
      | some i => bm.set i true
      | none => bm)
    (List.replicate students.length false)

/-- `StudentPool.__init__`: raises `ValueError` (modelled as `none`) on an
empty roster; otherwise all-available, none-picked, empty recent window.
`no_duplicate` is clamped to `max(0, ·)`, the identity on `Nat`. -/
def StudentPool.init (allStudents femaleStudents : List Student)
    (noDuplicate : Nat) : Option StudentPool :=
  if allStudents.isEmpty then none
  else
    some
      { students := allStudents
        femaleBitmap := mkFemaleBitmap allStudents femaleStudents
        bitAvailable := List.replicate allStudents.length true
        bitPicked := List.replicate allStudents.length false
        noDuplicate := noDuplicate
        recentQueue := []
        recentBitmap := List.replicate allStudents.length false }

/-- `_get_candidate_bitmap`: available mask filtered by gender. -/
def StudentPool.getCandidateBitmap (p : StudentPool) (gender : Gender) :
    List Bool :=
  match gender with
  | .unknown => p.bitAvailable
  | .female => band p.bitAvailable p.femaleBitmap
  | .male => band p.bitAvailable (bnot p.femaleBitmap)

/-- The candidate bitmap actually used by `pick`: step 1 plus the step-2
subtraction of the recent bitmap when `no_duplicate > 0`. -/
def StudentPool.pickCandidates (p : StudentPool) (gender : Gender) :
    List Bool :=
  let c := p.getCandidateBitmap gender
  if 0 < p.noDuplicate then band c (bnot p.recentBitmap) else c

/-- The scan of step 5 of `pick`: walk the bitmap by index, counting set
bits, and return the index of the `target`-th one. -/
def findKthTrue : List Bool → Nat → Nat → Option Nat
  | [], _, _ => none
  | b :: rest, idx, target =>
    if b then
      if target = 0 then some idx
      else findKthTrue rest (idx + 1) (target - 1)
    else findKthTrue rest (idx + 1) target

/-- Steps 6 and 7 of `pick`: the state update once `picked_idx` is known —
clearing/setting the availability bits when `remove` holds, then the FIFO
recent-window update (dequeue the oldest and clear its bit when the queue
is at capacity, then enqueue the new index and set its bit). -/
def StudentPool.pickUpdate (p : StudentPool) (remove : Bool)
    (pickedIdx : Nat) : StudentPool :=
  let p1 :=
    if remove then
      { p with
        bitAvailable := p.bitAvailable.set pickedIdx false
        bitPicked := p.bitPicked.set pickedIdx true }
    else p
  if 0 < p.noDuplicate then
    let pr :=
      if p.noDuplicate ≤ p1.recentQueue.length then
        (p1.recentQueue.tail,
         p1.recentBitmap.set (p1.recentQueue.headD 0) false)
      else (p1.recentQueue, p1.recentBitmap)
    { p1 with
      recentQueue := pr.1 ++ [pickedIdx]
      recentBitmap := pr.2.set pickedIdx true }
  else p1

/-- `StudentPool.pick`, steps 1-7, returning the picked index (from which
line 113 derives the display name) together with the updated pool.  The
`IndexError` raise of step 3 happens before any state change in the
source, so the error case returns the pool unchanged. -/
def StudentPool.pickIdx (p : StudentPool) (gender : Gender) (remove : Bool)
    (target : Nat) : Option Nat × StudentPool :=
  let candidates := p.pickCandidates gender
  let availableCount := candidates.count true
  if availableCount = 0 then (none, p)
  else
    match findKthTrue candidates 0 target with
    | none => (none, p)
    | some pickedIdx => (some pickedIdx, p.pickUpdate remove pickedIdx)

/-- `StudentPool.pick` as seen by callers: the display name of the picked
student (line 113). -/
def StudentPool.pick (p : StudentPool) (gender : Gender) (remove : Bool)
    (target : Nat) : Option String × StudentPool :=
  let r := p.pickIdx gender remove target
  ((r.1).map (fun i => (((p.students.get? i).map Student.display_name).getD "")),
   r.2)

/-- `StudentPool.reset`: full or gender-scoped reset of the
available/picked bitmaps; the recent window is cleared unconditionally. -/
def StudentPool.reset (p : StudentPool) (gender : Gender) : StudentPool :=
  let p1 :=
    match gender with
    | .unknown =>
      { p with
        bitAvailable := setall p.bitAvailable true
        bitPicked := setall p.bitPicked false }
    | .female =>
      { p with
        bitAvailable := bor p.bitAvailable p.femaleBitmap
        bitPicked := band p.bitPicked (bnot p.femaleBitmap) }
    | .male =>
      { p with
        bitAvailable := bor p.bitAvailable (bnot p.femaleBitmap)
        bitPicked := band p.bitPicked (bnot (bnot p.femaleBitmap)) }
  { p1 with
    recentQueue := []
    recentBitmap := setall p.recentBitmap false }

/-- `get_available_names`: the set of original names whose available bit
is set. -/
def StudentPool.getAvailableNames (p : StudentPool) : Finset String :=
  ((Finset.range p.students.length).filter
      (fun i => p.bitAvailable.getD i false = true)).image
    (fun i => ((p.students.get? i).map Student.original_name).getD "")

/-- The body of the restore loop: a known name is made available again and
un-picked; an unknown name is silently skipped. -/
def restoreName (q : StudentPool) (name : String) : StudentPool :=
  match nameToIdx q.students name with
  | some idx =>
    { q with
      bitAvailable := q.bitAvailable.set idx true
      bitPicked := q.bitPicked.set idx false }
  | none => q

/-- `restore_available_names`: everything unavailable/picked, then each
known incoming name made available again; unknown names are skipped. -/
def StudentPool.restoreAvailableNames (p : StudentPool) (names : List String) :
    StudentPool :=
  let base :=
    { p with
      bitAvailable := setall p.bitAvailable false
      bitPicked := setall p.bitPicked true }
  names.foldl restoreName base

/-- Basic well-formedness: every bitmap has the population's length (true
of every pool the constructor builds, and preserved by all operations). -/
def StudentPool.WF (p : StudentPool) : Prop :=
  p.femaleBitmap.length = p.students.length ∧
  p.bitAvailable.length = p.students.length ∧
  p.bitPicked.length = p.students.length ∧
  p.recentBitmap.length = p.students.length

instance (p : StudentPool) : Decidable p.WF := by
  unfold StudentPool.WF; infer_instance

/-- Invariant of the recent window: the queue has no duplicates, respects
the capacity, its members are in range, and the recent bitmap mirrors
queue membership exactly. -/
def StudentPool.RecentInv (p : StudentPool) : Prop :=
  p.recentQueue.Nodup ∧
  p.recentQueue.length ≤ p.noDuplicate ∧
  (∀ j ∈ p.recentQueue, j < p.recentBitmap.length) ∧
  (∀ j, j < p.recentBitmap.length →
    (p.recentBitmap.getD j false = true ↔ j ∈ p.recentQueue))

instance (p : StudentPool) : Decidable p.RecentInv := by
  unfold StudentPool.RecentInv
  infer_instance

/-- A run of consecutive `pick` calls on one pool (no reset/restore in
between): each call fixes a gender filter, a remove flag and the random
draw; the result list records the picked index of each call (`none` for a
raised `NoCandidates`). -/
def runPicks : StudentPool → List (Gender × Bool × Nat) →
    List (Option Nat) × StudentPool
  | p, [] => ([], p)
  | p, c :: rest =>
    let r := p.pickIdx c.1 c.2.1 c.2.2
    let rec' := runPicks r.2 rest
    (r.1 :: rec'.1, rec'.2)

/-! ### Population loading (`_parse_student_file` + `_load_student_data`)

The file iteration is modelled as a list of lines (newline already
stripped by the list representation, so `line.rstrip('\n')` is the line
itself). -/

/-- Python `str.strip()`: drop whitespace from both ends, expressed over
the string's character data. -/
def pyStrip (s : String) : String :=
  String.mk
    (((s.data.dropWhile Char.isWhitespace).reverse.dropWhile
      Char.isWhitespace).reverse)

/-- Python `str.startswith('#')`. -/
def startsWithHash (s : String) : Bool :=
  match s.data with
  | c :: _ => c = '#'
  | [] => false

/-- `_parse_student_file`: skip blank and `#` lines; the surviving line is
the identity, its stripped form the display name. -/
def parseStudentLines (lines : List String) (defaultGender : Gender) :
    List Student :=
  (lines.filter
      (fun line => ¬(pyStrip line = "" ∨ startsWithHash (pyStrip line)))).map
    (fun line =>
      { original_name := line
        display_name := pyStrip line
        gender := defaultGender })

/-- Construction failures of the population build. -/
inductive BuildError where
  | emptyPopulation
  | subsetViolation (invalid : Finset String)
deriving DecidableEq

/-- The female-subset check of `_load_student_data`. -/
def invalidFemales (allLines femaleLines : List String) : Finset String :=
  let allNames :=
    ((parseStudentLines allLines .unknown).map Student.original_name).toFinset
  let femaleNames :=
    ((parseStudentLines femaleLines .female).map Student.original_name).toFinset
  femaleNames \ allNames

/-- The load-and-validate pipeline of `_load_student_data`: parse both
files, fail on an invalid female subset (the fix dialog, which never
constructs the pool), otherwise construct the `StudentPool`, whose
constructor rejects an empty roster. -/
def loadStudentData (allLines femaleLines : List String) :
    Except BuildError StudentPool :=
  let allStudents := parseStudentLines allLines .unknown
  let femaleStudents := parseStudentLines femaleLines .female
  let invalid := invalidFemales allLines femaleLines
  if invalid = ∅ then
    match StudentPool.init allStudents femaleStudents 0 with
    | none => .error .emptyPopulation
    | some pool => .ok pool
  else .error (.subsetViolation invalid)

/-! ### JSON configuration values (`ConfigManager`) -/

/-- JSON values occurring in the persisted configuration.  Float literals
are carried as their decimal text (only compared and serialized, never
computed with). -/
inductive JVal where
  | jint (i : Int)
  | jfloat (lit : String)
  | jstr (s : String)
  | jbool (b : Bool)
  | jnull
  | jstrs (xs : List String)
deriving DecidableEq

/-- A configuration mapping: an insertion-ordered association list with
unique keys (a Python dict). -/
abbrev Config := List (String × JVal)

def serializeJVal : JVal → String
  | .jint i => toString i
  | .jfloat lit => lit
  | .jstr s => "\"" ++ s ++ "\""
  | .jbool b => if b then "true" else "false"
  | .jnull => "null"
  | .jstrs xs =>
    "[" ++ String.intercalate ", " (xs.map (fun s => "\"" ++ s ++ "\"")) ++ "]"

def insertByKey (p : String × JVal) :
    List (String × JVal) → List (String × JVal)
  | [] => [p]
  | q :: rest =>
    if p.1 ≤ q.1 then p :: q :: rest else q :: insertByKey p rest

/-- Stable key ordering of `json.dumps(..., sort_keys=True)`. -/
def sortByKey : List (String × JVal) → List (String × JVal)
  | [] => []
  | p :: rest => insertByKey p (sortByKey rest)

/-- Canonical serialization: keys sorted, rendered deterministically
(`json.dumps(config, ensure_ascii=False, sort_keys=True, indent=2)`).
The SHA-256 hash taken of it in the source is modelled by the canonical
string itself. -/
def canonicalSerialize (c : Config) : String :=
  "\x7b" ++
    String.intercalate ", "
      ((sortByKey c).map
        (fun p => "\"" ++ p.1 ++ "\": " ++ serializeJVal p.2)) ++
    "\x7d"

/-- `config.get(key)`. -/
def cfgGet (c : Config) (k : String) : Option JVal :=
  c.lookup k

/-- `config[key] = v`: overwrite in place when the key exists (dict
insertion order preserved), else append. -/
def cfgSet : Config → String → JVal → Config
  | [], k, v => [(k, v)]
  | p :: t, k, v => if p.1 = k then (k, v) :: t else p :: cfgSet t k v

/-- `config_copy.get(KEY_INTERNAL_REVISION, 0)`. -/
def getRevision (c : Config) : Int :=
  match cfgGet c "_revision" with
  | some (.jint i) => i
  | _ => 0

/-- The class-level state of `ConfigManager` plus the persisted file.  The
file stores the mapping the JSON text denotes; writing goes through a
temporary file and an atomic rename in the source, which a single-state
model collapses to one assignment (the live file always holds a complete
mapping). -/
structure ConfigStoreState where
  cache : Option Config
  lastSaveHash : Option String
  file : Option Config
deriving DecidableEq

/-- `DEFAULT_CONFIG` of PickerConfigManager.py. -/
def DEFAULT_CONFIG : Config :=
  [("animation_time", .jfloat "0.8"),
   ("floating_x_size", .jint 100),
   ("floating_y_size", .jint 100),
   ("speak_speed", .jint 170),
   ("is_save", .jbool false),
   ("animation", .jbool true),
   ("recite_mode", .jbool false),
   ("pick_again", .jbool true),
   ("pick_balanced", .jbool false),
   ("no_duplicate", .jint 0),
   ("auto_start", .jbool false),
   ("speak_name", .jbool true),
   ("_revision", .jint 0),
   ("show_floating", .jbool true),
   ("floating_autostick", .jbool false),
   ("double_floating_window", .jbool false),
   ("floating_image", .jnull),
   ("window_geometry_qt", .jnull),
   ("saved_available_names", .jstrs []),
   ("picked_count", .jint 0),
   ("gender_filter", .jstr "unknown")]

/-- `ConfigManager.save_atomic`.  (The `recent_bitmap` conversion branch
mutates only the caller's dict, never `config_copy`, and no caller passes
such a key, so it has no effect on the store state.) -/
def saveAtomic (st : ConfigStoreState) (config : Config) : ConfigStoreState :=
  let configStr := canonicalSerialize config
  if some configStr = st.lastSaveHash then st
  else
    let configCopy := cfgSet config "_revision" (.jint (getRevision config + 1))
    let configStr2 := canonicalSerialize configCopy
    { cache := some configCopy
      lastSaveHash := some configStr2
      file := some configCopy }

/-- `{**DEFAULT_CONFIG, **config}`: default keys in order, overridden by
the loaded mapping, followed by the loaded mapping's new keys. -/
def mergeConfigs (d c : Config) : Config :=
  (d.map
      (fun p =>
        match cfgGet c p.1 with
        | some v => (p.1, v)
        | none => p)) ++
    c.filter (fun p => ¬ d.any (fun q => q.1 = p.1))

/-- `ConfigManager._load_internal`: decode the file, default-merge, call
`save_atomic` on the merged mapping, and return the merged (un-bumped)
mapping; on any failure return a copy of the defaults without touching
the store. -/
def loadInternal (st : ConfigStoreState) : Config × ConfigStoreState :=
  match st.file with
  | some c =>
    let config := mergeConfigs DEFAULT_CONFIG c
    (config, saveAtomic st config)
  | none => (DEFAULT_CONFIG, st)

/-- `ConfigManager.load_cached`: populate the cache from `_load_internal`
when empty; callers get a deep copy of the cache. -/
def loadCached (st : ConfigStoreState) : Config × ConfigStoreState :=
  match st.cache with
  | some c => (c, st)
  | none =>
    let r := loadInternal st
    (r.1, { r.2 with cache := some r.1 })

/-! ### Save coalescer (`SaveDebouncer` + `PickName.request_save`) -/

/-- `CONFIG_SAVE_DELAY` (ms). -/
def CONFIG_SAVE_DELAY : Nat := 300

/-- The debounce timer's observable state: whether a timeout is pending
and with what delay it was last started. -/
structure DebounceTimer where
  active : Bool
  delay : Nat
deriving DecidableEq

/-- `SaveDebouncer.start`: stop any pending timer, then start with the
given delay. -/
def DebounceTimer.start (_t : DebounceTimer) (delay : Nat) : DebounceTimer :=
  { active := true, delay := delay }

/-- `SaveDebouncer.stop`. -/
def DebounceTimer.stop (t : DebounceTimer) : DebounceTimer :=
  { t with active := false }

/-- The coalescer's state: the pending reason set, the debounce timer and
the log of executed flushes (each entry the reason set a flush handled;
what `_flush_all_saves` writes per reason is outside this claim's scope). -/
structure SaverState where
  saveQueue : Finset String
  timer : DebounceTimer
  flushed : List (Finset String)
deriving DecidableEq

/-- `_flush_all_saves`: nothing to do on an empty queue, otherwise copy
and clear the queue and process the copied reasons. -/
def flushAllSaves (s : SaverState) : SaverState :=
  if s.saveQueue = ∅ then s
  else { s with saveQueue := ∅, flushed := s.flushed ++ [s.saveQueue] }

/-- The pending set right after the merge step of `request_save`:
geometry dedup (discard a pending `"geometry"` before re-adding), then
set union with the new reasons. -/
def requestMerged (s : SaverState) (reasons : List String) : Finset String :=
  (if "geometry" ∈ reasons ∧ "geometry" ∈ s.saveQueue then
      s.saveQueue.erase "geometry"
    else s.saveQueue) ∪ reasons.toFinset

/-- `PickName.request_save`: geometry dedup, merge, overflow flush past 5
pending reasons, otherwise debounce-restart. -/
def requestSave (s : SaverState) (reasons : List String) : SaverState :=
  let q2 := requestMerged s reasons
  let s1 := { s with saveQueue := q2 }
  if 5 < q2.card then
    flushAllSaves { s1 with timer := s1.timer.stop }
  else
    { s1 with timer := (s1.timer.stop).start CONFIG_SAVE_DELAY }

/-- Observer: the invalid-name set when the build failed with a subset
violation. -/
def subsetViolationSet : Except BuildError StudentPool → Option (Finset String)
  | .error (.subsetViolation s) => some s
  | _ => none

/-- Observer: whether the build failed with `EmptyPopulation`. -/
def isEmptyPopulationError : Except BuildError StudentPool → Bool
  | .error .emptyPopulation => true
  | _ => false

/-- A small concrete population (the §8 scenario roster) used to exercise
the definitions in witnesses. -/
def sampleStudents : List Student :=
  [⟨"A", "A", .unknown⟩, ⟨"B", "B", .unknown⟩, ⟨"C", "C", .female⟩,
   ⟨"D", "D", .female⟩, ⟨"E", "E", .unknown⟩]

/-- The female subset of the sample population. -/
def sampleFemales : List Student :=
  [⟨"C", "C", .female⟩, ⟨"D", "D", .female⟩]

/-- The sample pool with repeats allowed (`noDuplicate = 0`). -/
def samplePool : StudentPool :=
  (StudentPool.init sampleStudents sampleFemales 0).getD
    ⟨[], [], [], [], 0, [], []⟩

/-- The sample pool with a no-repeat window of two picks. -/
def samplePool2 : StudentPool :=
  (StudentPool.init sampleStudents sampleFemales 2).getD
    ⟨[], [], [], [], 0, [], []⟩

/-! ## Helper lemmas -/

theorem cfgGet_cfgSet (c : Config) (k : String) (v : JVal) :
    cfgGet (cfgSet c k v) k = some v := by
  induction c with
  | nil => simp [cfgSet, cfgGet, List.lookup]
  | cons p t ih =>
    by_cases hp : p.1 = k
    · simp [cfgSet, hp, cfgGet, List.lookup]
    · have hb : (k == p.1) = false := by
        simp [Ne.symm hp]
      simpa [cfgSet, hp, cfgGet, List.lookup, hb] using ih

theorem getRevision_cfgSet (c : Config) (r : Int) :
    getRevision (cfgSet c "_revision" (.jint r)) = r := by
  simp [getRevision, cfgGet_cfgSet]

theorem length_band (a b : List Bool) :
    (band a b).length = min a.length b.length := by
  simp [band]

theorem length_bor (a b : List Bool) :
    (bor a b).length = min a.length b.length := by
  simp [bor]

theorem length_bnot (a : List Bool) : (bnot a).length = a.length := by
  simp [bnot]

theorem length_setall (a : List Bool) (v : Bool) :
    (setall a v).length = a.length := by
  simp [setall]

theorem getD_band (a : List Bool) :
    ∀ (b : List Bool) (i : Nat), i < a.length → i < b.length →
      (band a b).getD i false = (a.getD i false && b.getD i false) := by
  induction a with
  | nil => intro b i ha; simp at ha
  | cons x t ih =>
    intro b i ha hb
    cases b with
    | nil => simp at hb
    | cons y u =>
      cases i with
      | zero => simp [band]
      | succ j =>
        have ha' : j < t.length := by simpa using ha
        have hb' : j < u.length := by simpa using hb
        simpa [band] using ih u j ha' hb'

theorem getD_bor (a : List Bool) :
    ∀ (b : List Bool) (i : Nat), i < a.length → i < b.length →
      (bor a b).getD i false = (a.getD i false || b.getD i false) := by
  induction a with
  | nil => intro b i ha; simp at ha
  | cons x t ih =>
    intro b i ha hb
    cases b with
    | nil => simp at hb
    | cons y u =>
      cases i with
      | zero => simp [bor]
      | succ j =>
        have ha' : j < t.length := by simpa using ha
        have hb' : j < u.length := by simpa using hb
        simpa [bor] using ih u j ha' hb'

theorem getD_bnot (a : List Bool) :
    ∀ i : Nat, i < a.length →
      (bnot a).getD i false = !(a.getD i false) := by
  induction a with
  | nil => intro i h; simp at h
  | cons x t ih =>
    intro i h
    cases i with
    | zero => simp [bnot]
    | succ j =>
      have h' : j < t.length := by simpa using h
      simpa [bnot] using ih j h'

theorem getD_band_imp (a : List Bool) :
    ∀ (b : List Bool) (i : Nat), (band a b).getD i false = true →
      a.getD i false = true ∧ b.getD i false = true := by
  induction a with
  | nil => intro b i h; simp [band] at h
  | cons x t ih =>
    intro b i h
    cases b with
    | nil => simp [band] at h
    | cons y u =>
      cases i with
      | zero =>
        simp [band] at h
        simpa using h
      | succ j =>
        simp only [band, List.zipWith, List.getD_cons_succ] at h
        simpa using ih u j h

theorem getD_bnot_imp (a : List Bool) :
    ∀ i : Nat, (bnot a).getD i false = true →
      i < a.length ∧ a.getD i false = false := by
  induction a with
  | nil => intro i h; simp [bnot] at h
  | cons x t ih =>
    intro i h
    cases i with
    | zero =>
      simp [bnot] at h
      simpa using h
    | succ j =>
      simp only [bnot, List.map, List.getD_cons_succ] at h
      have := ih j (by simpa [bnot] using h)
      simpa using this

theorem getD_setall_false (a : List Bool) :
    ∀ j : Nat, (setall a false).getD j false = false := by
  induction a with
  | nil => intro j; simp [setall]
  | cons x t ih =>
    intro j
    cases j with
    | zero => simp [setall]
    | succ j' => simp [setall]

theorem getD_true_lt_length (a : List Bool) :
    ∀ i : Nat, a.getD i false = true → i < a.length := by
  induction a with
  | nil => intro i h; simp at h
  | cons x t ih =>
    intro i h
    cases i with
    | zero => simp
    | succ j =>
      have := ih j (by simpa using h)
      simpa using this

theorem getD_set_self {α : Type _} (l : List α) :
    ∀ (i : Nat) (a d : α), i < l.length → (l.set i a).getD i d = a := by
  induction l with
  | nil => intro i a d h; simp at h
  | cons x t ih =>
    intro i a d h
    cases i with
    | zero => simp
    | succ j =>
      have h' : j < t.length := by simpa using h
      simpa using ih j a d h'

theorem getD_set_ne {α : Type _} (l : List α) :
    ∀ (i j : Nat) (a d : α), i ≠ j → (l.set i a).getD j d = l.getD j d := by
  induction l with
  | nil => intro i j a d _; simp
  | cons x t ih =>
    intro i j a d hij
    cases i with
    | zero =>
      cases j with
      | zero => exact absurd rfl hij
      | succ j' => simp
    | succ i' =>
      cases j with
      | zero => simp
      | succ j' =>
        have : i' ≠ j' := by omega
        simpa using ih i' j' a d this

theorem getD_default_eq {α : Type _} (l : List α) :
    ∀ (i : Nat) (d d' : α), i < l.length → l.getD i d = l.getD i d' := by
  induction l with
  | nil => intro i d d' h; simp at h
  | cons x t ih =>
    intro i d d' h
    cases i with
    | zero => simp
    | succ j =>
      have h' : j < t.length := by simpa using h
      simpa using ih j d d' h'

theorem findKthTrue_shift (bits : List Bool) :
    ∀ (idx t : Nat),
      findKthTrue bits idx t = (findKthTrue bits 0 t).map (· + idx) := by
  induction bits with
  | nil => intro idx t; rfl
  | cons b rest ih =>
    intro idx t
    cases b with
    | true =>
      by_cases ht : t = 0
      · subst ht; simp [findKthTrue]
      · rw [findKthTrue, findKthTrue, if_pos rfl, if_pos rfl, if_neg ht,
          if_neg ht, ih (idx + 1) (t - 1), ih 1 (t - 1)]
        cases findKthTrue rest 0 (t - 1) with
        | none => rfl
        | some x => simp [Option.map]; omega
    | false =>
      rw [findKthTrue, findKthTrue, if_neg (by simp), if_neg (by simp),
        ih (idx + 1) t, ih 1 t]
      cases findKthTrue rest 0 t with
      | none => rfl
      | some x => simp [Option.map]; omega

theorem findKthTrue_spec (bits : List Bool) :
    ∀ t : Nat, t < bits.count true →
      ∃ i, findKthTrue bits 0 t = some i ∧ bits.getD i false = true ∧
        (bits.take i).count true = t := by
  induction bits with
  | nil => intro t ht; simp at ht
  | cons b rest ih =>
    intro t ht
    cases b with
    | true =>
      cases t with
      | zero => exact ⟨0, by simp [findKthTrue], by simp, by simp⟩
      | succ t' =>
        have ht' : t' < rest.count true := by
          simp [List.count_cons] at ht; omega
        obtain ⟨i, hfind, hget, hcount⟩ := ih t' ht'
        refine ⟨i + 1, ?_, by simpa using hget, ?_⟩
        · rw [findKthTrue, if_pos rfl, if_neg (by omega)]
          simp only [Nat.add_sub_cancel, findKthTrue_shift rest 1 t', hfind]
          rfl
        · simp [List.take_succ_cons, List.count_cons, hcount]
    | false =>
      have ht' : t < rest.count true := by simpa [List.count_cons] using ht
      obtain ⟨i, hfind, hget, hcount⟩ := ih t ht'
      refine ⟨i + 1, ?_, by simpa using hget, ?_⟩
      · rw [findKthTrue, if_neg (by simp)]
        simp only [findKthTrue_shift rest 1 t, hfind]
        rfl
      · simp [List.take_succ_cons, List.count_cons, hcount]

theorem findKthTrue_getD (bits : List Bool) :
    ∀ t i : Nat, findKthTrue bits 0 t = some i →
      bits.getD i false = true ∧ (bits.take i).count true = t := by
  induction bits with
  | nil => intro t i h; simp [findKthTrue] at h
  | cons b rest ih =>
    intro t i h
    cases b with
    | true =>
      by_cases ht : t = 0
      · subst ht
        rw [findKthTrue, if_pos rfl, if_pos rfl] at h
        cases h
        exact ⟨by simp, by simp⟩
      · rw [findKthTrue, if_pos rfl, if_neg ht,
          findKthTrue_shift rest 1 (t - 1)] at h
        cases hf : findKthTrue rest 0 (t - 1) with
        | none => rw [hf] at h; simp at h
        | some i' =>
          rw [hf] at h
          simp [Option.map] at h
          obtain ⟨hget, hcount⟩ := ih (t - 1) i' hf
          subst h
          refine ⟨by simpa using hget, ?_⟩
          simp [List.take_succ_cons, List.count_cons, hcount]
          omega
    | false =>
      rw [findKthTrue, if_neg (by simp), findKthTrue_shift rest 1 t] at h
      cases hf : findKthTrue rest 0 t with
      | none => rw [hf] at h; simp at h
      | some i' =>
        rw [hf] at h
        simp [Option.map] at h
        obtain ⟨hget, hcount⟩ := ih t i' hf
        subst h
        refine ⟨by simpa using hget, ?_⟩
        simp [List.take_succ_cons, List.count_cons, hcount]

theorem findKthTrue_of_getD (bits : List Bool) :
    ∀ i : Nat, bits.getD i false = true →
      findKthTrue bits 0 ((bits.take i).count true) = some i := by
  induction bits with
  | nil => intro i h; simp at h
  | cons b rest ih =>
    intro i h
    cases i with
    | zero =>
      have hb : b = true := by simpa using h
      subst hb
      simp [findKthTrue]
    | succ j =>
      have hj : rest.getD j false = true := by simpa using h
      have := ih j hj
      cases b with
      | true =>
        rw [List.take_succ_cons]
        have hc : (true :: List.take j rest).count true =
            (List.take j rest).count true + 1 := by
          simp [List.count_cons]
        rw [hc, findKthTrue, if_pos rfl, if_neg (by omega)]
        simp only [Nat.add_sub_cancel, findKthTrue_shift rest 1, this]
        rfl
      | false =>
        rw [List.take_succ_cons]
        have hc : (false :: List.take j rest).count true =
            (List.take j rest).count true := by
          simp [List.count_cons]
        rw [hc, findKthTrue, if_neg (by simp)]
        simp only [findKthTrue_shift rest 1, this]
        rfl

theorem take_count_lt (bits : List Bool) :
    ∀ i : Nat, bits.getD i false = true →
      (bits.take i).count true < bits.count true := by
  induction bits with
  | nil => intro i h; simp at h
  | cons b rest ih =>
    intro i h
    cases i with
    | zero =>
      have hb : b = true := by simpa using h
      subst hb
      simp [List.count_cons]
    | succ j =>
      have hj : rest.getD j false = true := by simpa using h
      have := ih j hj
      simp [List.take_succ_cons, List.count_cons]
      omega

theorem getD_false_lt_length (a : List Bool) :
    ∀ j : Nat, a.getD j true = false → j < a.length := by
  induction a with
  | nil => intro j h; simp at h
  | cons x t ih =>
    intro j h
    cases j with
    | zero => simp
    | succ j' =>
      have := ih j' (by simpa using h)
      simpa using this

theorem pickCandidates_length (p : StudentPool) (g : Gender) (hwf : p.WF) :
    (p.pickCandidates g).length = p.students.length := by
  obtain ⟨hf, ha, hp, hr⟩ := hwf
  cases g <;>
    simp [StudentPool.pickCandidates, StudentPool.getCandidateBitmap] <;>
    split <;>
    simp [length_band, length_bnot, hf, ha, hr]

theorem pickCandidates_avail (p : StudentPool) (g : Gender) (i : Nat)
    (h : (p.pickCandidates g).getD i false = true) :
    p.bitAvailable.getD i false = true := by
  unfold StudentPool.pickCandidates at h
  by_cases hd : 0 < p.noDuplicate <;>
    simp only [hd, if_pos, if_neg, if_true, if_false] at h
  · have h1 := (getD_band_imp _ _ _ h).1
    cases g <;>
      simp only [StudentPool.getCandidateBitmap] at h1
    · exact (getD_band_imp _ _ _ h1).1
    · exact (getD_band_imp _ _ _ h1).1
    · exact h1
  · cases g <;>
      simp only [StudentPool.getCandidateBitmap] at h
    · exact (getD_band_imp _ _ _ h).1
    · exact (getD_band_imp _ _ _ h).1
    · exact h

theorem pickCandidates_not_recent (p : StudentPool) (g : Gender) (i : Nat)
    (hd : 0 < p.noDuplicate)
    (h : (p.pickCandidates g).getD i false = true) :
    p.recentBitmap.getD i false = false := by
  unfold StudentPool.pickCandidates at h
  rw [if_pos hd] at h
  exact (getD_bnot_imp _ _ (getD_band_imp _ _ _ h).2).2

theorem pickIdx_empty (p : StudentPool) (g : Gender) (r : Bool) (t : Nat)
    (h : (p.pickCandidates g).count true = 0) :
    p.pickIdx g r t = (none, p) := by
  simp [StudentPool.pickIdx, h]

theorem pickIdx_success (p : StudentPool) (g : Gender) (r : Bool) (t : Nat)
    (h : t < (p.pickCandidates g).count true) :
    ∃ i, findKthTrue (p.pickCandidates g) 0 t = some i ∧
      (p.pickCandidates g).getD i false = true ∧
      ((p.pickCandidates g).take i).count true = t ∧
      p.pickIdx g r t = (some i, p.pickUpdate r i) := by
  obtain ⟨i, hf, hget, hcount⟩ := findKthTrue_spec _ t h
  refine ⟨i, hf, hget, hcount, ?_⟩
  unfold StudentPool.pickIdx
  rw [if_neg (by omega), hf]

theorem pickIdx_inv (p : StudentPool) (g : Gender) (r : Bool) (t : Nat) :
    ((p.pickIdx g r t).1 = none ∧ (p.pickIdx g r t).2 = p) ∨
    ∃ i, (p.pickIdx g r t).1 = some i ∧
      (p.pickCandidates g).getD i false = true ∧
      (p.pickIdx g r t).2 = p.pickUpdate r i := by
  by_cases h0 : (p.pickCandidates g).count true = 0
  · rw [pickIdx_empty p g r t h0]
    exact Or.inl ⟨rfl, rfl⟩
  · cases hf : findKthTrue (p.pickCandidates g) 0 t with
    | none =>
      have hp : p.pickIdx g r t = (none, p) := by
        unfold StudentPool.pickIdx
        rw [if_neg h0, hf]
      rw [hp]
      exact Or.inl ⟨rfl, rfl⟩
    | some i =>
      have hp : p.pickIdx g r t = (some i, p.pickUpdate r i) := by
        unfold StudentPool.pickIdx
        rw [if_neg h0, hf]
      rw [hp]
      exact Or.inr ⟨i, rfl, (findKthTrue_getD _ _ _ hf).1, rfl⟩

theorem pickUpdate_students (p : StudentPool) (r : Bool) (i : Nat) :
    (p.pickUpdate r i).students = p.students := by
  simp only [StudentPool.pickUpdate]
  split <;> split <;> rfl

theorem pickUpdate_noDuplicate (p : StudentPool) (r : Bool) (i : Nat) :
    (p.pickUpdate r i).noDuplicate = p.noDuplicate := by
  simp only [StudentPool.pickUpdate]
  split <;> split <;> rfl

theorem pickUpdate_femaleBitmap (p : StudentPool) (r : Bool) (i : Nat) :
    (p.pickUpdate r i).femaleBitmap = p.femaleBitmap := by
  simp only [StudentPool.pickUpdate]
  split <;> split <;> rfl

theorem pickUpdate_avail (p : StudentPool) (r : Bool) (i : Nat) :
    (p.pickUpdate r i).bitAvailable =
      if r then p.bitAvailable.set i false else p.bitAvailable := by
  simp only [StudentPool.pickUpdate]
  split <;> split <;> simp_all

theorem pickUpdate_picked (p : StudentPool) (r : Bool) (i : Nat) :
    (p.pickUpdate r i).bitPicked =
      if r then p.bitPicked.set i true else p.bitPicked := by
  simp only [StudentPool.pickUpdate]
  split <;> split <;> simp_all

theorem pickUpdate_recent_pos (p : StudentPool) (r : Bool) (i : Nat)
    (hd : 0 < p.noDuplicate) :
    (p.pickUpdate r i).recentQueue =
      (if p.noDuplicate ≤ p.recentQueue.length then p.recentQueue.tail
        else p.recentQueue) ++ [i] ∧
    (p.pickUpdate r i).recentBitmap =
      (if p.noDuplicate ≤ p.recentQueue.length then
          p.recentBitmap.set (p.recentQueue.headD 0) false
        else p.recentBitmap).set i true := by
  cases r <;> refine ⟨?_, ?_⟩ <;>
    simp only [StudentPool.pickUpdate, if_pos hd] <;> simp <;>
    split <;> rfl

theorem pickUpdate_recent_zero (p : StudentPool) (r : Bool) (i : Nat)
    (hd : ¬ 0 < p.noDuplicate) :
    (p.pickUpdate r i).recentQueue = p.recentQueue ∧
    (p.pickUpdate r i).recentBitmap = p.recentBitmap := by
  simp only [StudentPool.pickUpdate]
  constructor <;> split <;> simp_all <;> split <;> simp_all

theorem pickUpdate_wf (p : StudentPool) (r : Bool) (i : Nat) (hwf : p.WF) :
    (p.pickUpdate r i).WF := by
  obtain ⟨hf, ha, hp, hr⟩ := hwf
  refine ⟨?_, ?_, ?_, ?_⟩ <;>
    simp only [pickUpdate_students, pickUpdate_femaleBitmap,
      pickUpdate_avail, pickUpdate_picked]
  · exact hf
  · split <;> simp [ha]
  · split <;> simp [hp]
  · by_cases hd : 0 < p.noDuplicate
    · rw [(pickUpdate_recent_pos p r i hd).2]
      split <;> simp [hr]
    · rw [(pickUpdate_recent_zero p r i hd).2]
      exact hr

theorem pickIdx_wf (p : StudentPool) (g : Gender) (r : Bool) (t : Nat)
    (hwf : p.WF) : ((p.pickIdx g r t).2).WF := by
  rcases pickIdx_inv p g r t with ⟨_, h2⟩ | ⟨i, _, _, h2⟩
  · rw [h2]; exact hwf
  · rw [h2]; exact pickUpdate_wf p r i hwf

theorem pickIdx_students (p : StudentPool) (g : Gender) (r : Bool) (t : Nat) :
    ((p.pickIdx g r t).2).students = p.students := by
  rcases pickIdx_inv p g r t with ⟨_, h2⟩ | ⟨i, _, _, h2⟩
  · rw [h2]
  · rw [h2]; exact pickUpdate_students p r i

theorem pickUpdate_avail_false (p : StudentPool) (r : Bool) (i j : Nat)
    (hj : p.bitAvailable.getD j true = false) :
    (p.pickUpdate r i).bitAvailable.getD j true = false := by
  rw [pickUpdate_avail]
  split
  · by_cases hij : i = j
    · subst hij
      have hlt : i < p.bitAvailable.length := getD_false_lt_length _ _ hj
      rw [getD_set_self _ _ _ _ hlt]
    · rw [getD_set_ne _ _ _ _ _ hij]
      exact hj
  · exact hj

theorem pickUpdate_picked_true (p : StudentPool) (r : Bool) (i j : Nat)
    (hj : p.bitPicked.getD j false = true) :
    (p.pickUpdate r i).bitPicked.getD j false = true := by
  rw [pickUpdate_picked]
  split
  · by_cases hij : i = j
    · subst hij
      have hlt : i < p.bitPicked.length := getD_true_lt_length _ _ hj
      rw [getD_set_self _ _ _ _ hlt]
    · rw [getD_set_ne _ _ _ _ _ hij]
      exact hj
  · exact hj

theorem pickIdx_avail_false (p : StudentPool) (g : Gender) (r : Bool)
    (t j : Nat) (hj : p.bitAvailable.getD j true = false) :
    ((p.pickIdx g r t).2).bitAvailable.getD j true = false := by
  rcases pickIdx_inv p g r t with ⟨_, h2⟩ | ⟨i, _, _, h2⟩
  · rw [h2]; exact hj
  · rw [h2]; exact pickUpdate_avail_false p r i j hj

theorem pickIdx_picked_true (p : StudentPool) (g : Gender) (r : Bool)
    (t j : Nat) (hj : p.bitPicked.getD j false = true) :
    ((p.pickIdx g r t).2).bitPicked.getD j false = true := by
  rcases pickIdx_inv p g r t with ⟨_, h2⟩ | ⟨i, _, _, h2⟩
  · rw [h2]; exact hj
  · rw [h2]; exact pickUpdate_picked_true p r i j hj

theorem foldl_nameAcc (name : String) (l : List (Nat × Student)) :
    ∀ (acc : Option Nat) (i : Nat),
      l.foldl
        (fun acc p => if p.2.original_name = name then some p.1 else acc)
        acc = some i →
      (∃ p ∈ l, p.1 = i ∧ p.2.original_name = name) ∨ acc = some i := by
  induction l with
  | nil => intro acc i h; exact Or.inr h
  | cons q t ih =>
    intro acc i h
    rw [List.foldl_cons] at h
    rcases ih _ i h with ⟨pp, hmem, hi, hn⟩ | hacc
    · exact Or.inl ⟨pp, List.mem_cons_of_mem _ hmem, hi, hn⟩
    · by_cases hq : q.2.original_name = name
      · rw [if_pos hq] at hacc
        exact Or.inl ⟨q, List.mem_cons_self _ _, Option.some_inj.mp hacc, hq⟩
      · rw [if_neg hq] at hacc
        exact Or.inr hacc

theorem foldl_nameAcc_isSome (name : String) (l : List (Nat × Student)) :
    ∀ acc : Option Nat,
      ((∃ p ∈ l, p.2.original_name = name) ∨ ∃ i, acc = some i) →
      ∃ i, l.foldl
        (fun acc p => if p.2.original_name = name then some p.1 else acc)
        acc = some i := by
  induction l with
  | nil =>
    intro acc h
    rcases h with ⟨p, hp, _⟩ | h
    · exact absurd hp (List.not_mem_nil p)
    · exact h
  | cons q t ih =>
    intro acc h
    rw [List.foldl_cons]
    by_cases hq : q.2.original_name = name
    · exact ih _ (Or.inr ⟨q.1, by rw [if_pos hq]⟩)
    · rcases h with ⟨p, hp, hn⟩ | ⟨i, hi⟩
      · rcases List.mem_cons.mp hp with hpq | hpt
        · exact absurd (hpq ▸ hn) hq
        · exact ih _ (Or.inl ⟨p, hpt, hn⟩)
      · exact ih _ (Or.inr ⟨i, by rw [if_neg hq]; exact hi⟩)

theorem nameToIdx_mem (students : List Student) (name : String) (i : Nat)
    (h : nameToIdx students name = some i) :
    ∃ st, students.get? i = some st ∧ st.original_name = name := by
  rcases foldl_nameAcc name students.enum none i h with ⟨p, hmem, hi, hn⟩ | h'
  · have : students[p.1]? = some p.2 :=
      (List.mk_mem_enum_iff_getElem?).mp (by
        cases p
        exact hmem)
    refine ⟨p.2, ?_, hn⟩
    rw [List.get?_eq_getElem?, ← hi]
    exact this
  · cases h'

theorem nameToIdx_isSome (students : List Student) (name : String)
    (st : Student) (hmem : st ∈ students) (hn : st.original_name = name) :
    ∃ i, nameToIdx students name = some i := by
  obtain ⟨idx, hidx⟩ := List.mem_iff_getElem?.mp hmem
  refine foldl_nameAcc_isSome name students.enum none (Or.inl ?_)
  exact ⟨(idx, st), (List.mk_mem_enum_iff_getElem?).mpr hidx, hn⟩

theorem nameToIdx_lt (students : List Student) (name : String) (i : Nat)
    (h : nameToIdx students name = some i) : i < students.length := by
  obtain ⟨st, hst, _⟩ := nameToIdx_mem students name i h
  rw [List.get?_eq_getElem?] at hst
  exact (List.getElem?_eq_some.mp hst).1

theorem restoreName_students (q : StudentPool) (name : String) :
    (restoreName q name).students = q.students := by
  unfold restoreName
  cases nameToIdx q.students name <;> rfl

theorem restoreName_availLength (q : StudentPool) (name : String) :
    (restoreName q name).bitAvailable.length = q.bitAvailable.length := by
  unfold restoreName
  cases nameToIdx q.students name <;> simp

theorem restoreName_avail (q : StudentPool) (name : String) (i : Nat)
    (hlen : q.bitAvailable.length = q.students.length) :
    ((restoreName q name).bitAvailable.getD i false = true ↔
      (q.bitAvailable.getD i false = true ∨
        nameToIdx q.students name = some i)) := by
  unfold restoreName
  cases hn : nameToIdx q.students name with
  | none => simp
  | some idx =>
    by_cases hii : idx = i
    · subst hii
      have hlt : idx < q.bitAvailable.length := by
        rw [hlen]
        exact nameToIdx_lt _ _ _ hn
      show ((q.bitAvailable.set idx true).getD idx false = true ↔ _)
      rw [getD_set_self _ _ _ _ hlt]
      simp
    · simp only
      rw [getD_set_ne _ _ _ _ _ hii]
      simp [hii]

theorem foldl_restore_avail (names : List String) :
    ∀ (q : StudentPool) (i : Nat),
      q.bitAvailable.length = q.students.length →
      ((names.foldl restoreName q).bitAvailable.getD i false = true ↔
        (q.bitAvailable.getD i false = true ∨
          ∃ nm ∈ names, nameToIdx q.students nm = some i)) := by
  induction names with
  | nil => intro q i _; simp
  | cons n t ih =>
    intro q i hlen
    rw [List.foldl_cons,
      ih (restoreName q n) i
        (by rw [restoreName_availLength, restoreName_students]; exact hlen),
      restoreName_avail q n i hlen, restoreName_students]
    constructor
    · rintro ((h | h) | ⟨nm, hnm, hidx⟩)
      · exact Or.inl h
      · exact Or.inr ⟨n, List.mem_cons_self _ _, h⟩
      · exact Or.inr ⟨nm, List.mem_cons_of_mem _ hnm, hidx⟩
    · rintro (h | ⟨nm, hnm, hidx⟩)
      · exact Or.inl (Or.inl h)
      · rcases List.mem_cons.mp hnm with hq | hq
        · exact Or.inl (Or.inr (hq ▸ hidx))
        · exact Or.inr ⟨nm, hq, hidx⟩

theorem foldl_restore_students (names : List String) :
    ∀ q : StudentPool, (names.foldl restoreName q).students = q.students := by
  induction names with
  | nil => intro q; rfl
  | cons n t ih =>
    intro q
    rw [List.foldl_cons, ih (restoreName q n), restoreName_students]

theorem getD_eq_getElem_of_lt {α : Type _} (l : List α) :
    ∀ (i : Nat) (d : α) (h : i < l.length), l.getD i d = l.get ⟨i, h⟩ := by
  induction l with
  | nil => intro i d h; simp at h
  | cons x t ih =>
    intro i d h
    cases i with
    | zero => rfl
    | succ j =>
      have h' : j < t.length := by simpa using h
      simpa using ih j d h'

theorem runPicks_nil (p : StudentPool) : runPicks p [] = ([], p) := rfl

theorem runPicks_cons (p : StudentPool) (c : Gender × Bool × Nat)
    (cs : List (Gender × Bool × Nat)) :
    runPicks p (c :: cs) =
      ((p.pickIdx c.1 c.2.1 c.2.2).1 ::
          (runPicks (p.pickIdx c.1 c.2.1 c.2.2).2 cs).1,
        (runPicks (p.pickIdx c.1 c.2.1 c.2.2).2 cs).2) := rfl

theorem runPicks_students (cs : List (Gender × Bool × Nat)) :
    ∀ p : StudentPool, ((runPicks p cs).2).students = p.students := by
  induction cs with
  | nil => intro p; rfl
  | cons c cs' ih =>
    intro p
    rw [runPicks_cons]
    rw [ih]
    exact pickIdx_students p c.1 c.2.1 c.2.2

theorem runPicks_wf (cs : List (Gender × Bool × Nat)) :
    ∀ p : StudentPool, p.WF → ((runPicks p cs).2).WF := by
  induction cs with
  | nil => intro p h; exact h
  | cons c cs' ih =>
    intro p h
    rw [runPicks_cons]
    exact ih _ (pickIdx_wf p c.1 c.2.1 c.2.2 h)

theorem runPicks_avail_false_final (cs : List (Gender × Bool × Nat)) :
    ∀ (p : StudentPool) (j : Nat), p.bitAvailable.getD j true = false →
      ((runPicks p cs).2).bitAvailable.getD j true = false := by
  induction cs with
  | nil => intro p j hj; exact hj
  | cons c cs' ih =>
    intro p j hj
    rw [runPicks_cons]
    exact ih _ j (pickIdx_avail_false p c.1 c.2.1 c.2.2 j hj)

theorem runPicks_picked_true_final (cs : List (Gender × Bool × Nat)) :
    ∀ (p : StudentPool) (j : Nat), p.bitPicked.getD j false = true →
      ((runPicks p cs).2).bitPicked.getD j false = true := by
  induction cs with
  | nil => intro p j hj; exact hj
  | cons c cs' ih =>
    intro p j hj
    rw [runPicks_cons]
    exact ih _ j (pickIdx_picked_true p c.1 c.2.1 c.2.2 j hj)

theorem runPicks_avoids_unavailable (cs : List (Gender × Bool × Nat)) :
    ∀ (p : StudentPool) (j : Nat), p.bitAvailable.getD j true = false →
      ∀ (u i : Nat), (runPicks p cs).1.getD u none = some i → i ≠ j := by
  induction cs with
  | nil =>
    intro p j hj u i h
    rw [runPicks_nil] at h
    simp at h
  | cons c cs' ih =>
    intro p j hj u i h
    rw [runPicks_cons] at h
    cases u with
    | zero =>
      rw [List.getD_cons_zero] at h
      rcases pickIdx_inv p c.1 c.2.1 c.2.2 with ⟨hnone, _⟩ |
        ⟨i', hsome, hcand, _⟩
      · rw [hnone] at h; cases h
      · rw [hsome] at h
        cases Option.some_inj.mp h
        intro hij
        rw [hij] at hcand
        have havail := pickCandidates_avail p c.1 j hcand
        have hlt : j < p.bitAvailable.length := getD_false_lt_length _ _ hj
        rw [getD_default_eq p.bitAvailable j false true hlt] at havail
        rw [havail] at hj
        cases hj
    | succ u' =>
      rw [List.getD_cons_succ] at h
      exact ih _ j (pickIdx_avail_false p c.1 c.2.1 c.2.2 j hj) u' i h

theorem runPicks_result_lt (cs : List (Gender × Bool × Nat)) :
    ∀ (p : StudentPool), p.WF → ∀ (t i : Nat),
      (runPicks p cs).1.getD t none = some i → i < p.students.length := by
  induction cs with
  | nil =>
    intro p _ t i h
    rw [runPicks_nil] at h
    simp at h
  | cons c cs' ih =>
    intro p hwf t i h
    rw [runPicks_cons] at h
    cases t with
    | zero =>
      rw [List.getD_cons_zero] at h
      rcases pickIdx_inv p c.1 c.2.1 c.2.2 with ⟨hnone, _⟩ |
        ⟨i', hsome, hcand, _⟩
      · rw [hnone] at h; cases h
      · rw [hsome] at h
        cases Option.some_inj.mp h
        have hl := getD_true_lt_length _ _ hcand
        rwa [pickCandidates_length p c.1 hwf] at hl
    | succ t' =>
      rw [List.getD_cons_succ] at h
      have hl := ih _ (pickIdx_wf p c.1 c.2.1 c.2.2 hwf) t' i h
      rwa [pickIdx_students] at hl

theorem runPicks_distinct (cs : List (Gender × Bool × Nat)) :
    ∀ (p : StudentPool), p.WF → (∀ c ∈ cs, c.2.1 = true) →
      ∀ (t u i j : Nat), t < u →
      (runPicks p cs).1.getD t none = some i →
      (runPicks p cs).1.getD u none = some j → j ≠ i := by
  induction cs with
  | nil =>
    intro p _ _ t u i j _ ht
    rw [runPicks_nil] at ht
    simp at ht
  | cons c cs' ih =>
    intro p hwf hrem t u i j htu ht hu
    rw [runPicks_cons] at ht hu
    cases t with
    | zero =>
      rw [List.getD_cons_zero] at ht
      obtain ⟨u', rfl⟩ : ∃ u', u = u' + 1 := ⟨u - 1, by omega⟩
      rw [List.getD_cons_succ] at hu
      have hc : c.2.1 = true := hrem c (List.mem_cons_self _ _)
      rcases pickIdx_inv p c.1 c.2.1 c.2.2 with ⟨hnone, _⟩ |
        ⟨i', hsome, hcand, hupd⟩
      · rw [hnone] at ht; cases ht
      · rw [hsome] at ht
        cases Option.some_inj.mp ht
        have hlt : i < p.bitAvailable.length := by
          have h1 := getD_true_lt_length _ _ hcand
          rw [pickCandidates_length p c.1 hwf] at h1
          rw [hwf.2.1]
          exact h1
        have hfalse :
            ((p.pickIdx c.1 c.2.1 c.2.2).2).bitAvailable.getD i true =
              false := by
          rw [hupd, pickUpdate_avail, hc, if_pos rfl,
            getD_set_self _ _ _ _ hlt]
        exact runPicks_avoids_unavailable cs' _ i hfalse u' j hu
    | succ t' =>
      obtain ⟨u', rfl⟩ : ∃ u', u = u' + 1 := ⟨u - 1, by omega⟩
      rw [List.getD_cons_succ] at ht hu
      exact ih _ (pickIdx_wf p c.1 c.2.1 c.2.2 hwf)
        (fun c' hc' => hrem c' (List.mem_cons_of_mem _ hc'))
        t' u' i j (by omega) ht hu

theorem runPicks_marks (cs : List (Gender × Bool × Nat)) :
    ∀ (p : StudentPool), p.WF → (∀ c ∈ cs, c.2.1 = true) →
      ∀ (t i : Nat), (runPicks p cs).1.getD t none = some i →
        ((runPicks p cs).2).bitAvailable.getD i true = false ∧
        ((runPicks p cs).2).bitPicked.getD i false = true := by
  induction cs with
  | nil =>
    intro p _ _ t i h
    rw [runPicks_nil] at h
    simp at h
  | cons c cs' ih =>
    intro p hwf hrem t i h
    rw [runPicks_cons] at h
    rw [runPicks_cons]
    cases t with
    | zero =>
      rw [List.getD_cons_zero] at h
      have hc : c.2.1 = true := hrem c (List.mem_cons_self _ _)
      rcases pickIdx_inv p c.1 c.2.1 c.2.2 with ⟨hnone, _⟩ |
        ⟨i', hsome, hcand, hupd⟩
      · rw [hnone] at h; cases h
      · rw [hsome] at h
        cases Option.some_inj.mp h
        have hlt1 : i < p.students.length := by
          have h1 := getD_true_lt_length _ _ hcand
          rwa [pickCandidates_length p c.1 hwf] at h1
        have hlta : i < p.bitAvailable.length := by
          rw [hwf.2.1]
          exact hlt1
        have hltp : i < p.bitPicked.length := by
          rw [hwf.2.2.1]
          exact hlt1
        have hfalse :
            ((p.pickIdx c.1 c.2.1 c.2.2).2).bitAvailable.getD i true =
              false := by
          rw [hupd, pickUpdate_avail, hc, if_pos rfl,
            getD_set_self _ _ _ _ hlta]
        have htrue :
            ((p.pickIdx c.1 c.2.1 c.2.2).2).bitPicked.getD i false =
              true := by
          rw [hupd, pickUpdate_picked, hc, if_pos rfl,
            getD_set_self _ _ _ _ hltp]
        exact ⟨runPicks_avail_false_final cs' _ i hfalse,
          runPicks_picked_true_final cs' _ i htrue⟩
    | succ t' =>
      rw [List.getD_cons_succ] at h
      exact ih _ (pickIdx_wf p c.1 c.2.1 c.2.2 hwf)
        (fun c' hc' => hrem c' (List.mem_cons_of_mem _ hc')) t' i h

theorem pickIdx_noDuplicate (p : StudentPool) (g : Gender) (r : Bool)
    (t : Nat) : ((p.pickIdx g r t).2).noDuplicate = p.noDuplicate := by
  rcases pickIdx_inv p g r t with ⟨_, h2⟩ | ⟨i, _, _, h2⟩
  · rw [h2]
  · rw [h2]; exact pickUpdate_noDuplicate p r i

theorem picked_lt_recentBitmap (p : StudentPool) (g : Gender) (i : Nat)
    (hwf : p.WF) (hcand : (p.pickCandidates g).getD i false = true) :
    i < p.recentBitmap.length := by
  have h1 := getD_true_lt_length _ _ hcand
  rw [pickCandidates_length p g hwf] at h1
  rw [hwf.2.2.2]
  exact h1

theorem picked_not_mem_recent (p : StudentPool) (g : Gender) (i : Nat)
    (hd : 0 < p.noDuplicate) (hinv : p.RecentInv)
    (hcand : (p.pickCandidates g).getD i false = true) :
    i ∉ p.recentQueue := by
  intro hmem'
  have hb := hinv.2.2.1 i hmem'
  have h1 := (hinv.2.2.2 i hb).mpr hmem'
  rw [pickCandidates_not_recent p g i hd hcand] at h1
  cases h1

theorem pickUpdate_recent_inv (p : StudentPool) (g : Gender) (r : Bool)
    (i : Nat) (hwf : p.WF) (hinv : p.RecentInv)
    (hcand : (p.pickCandidates g).getD i false = true) :
    (p.pickUpdate r i).RecentInv := by
  obtain ⟨hnd, hlen, hmem, hmirror⟩ := hinv
  by_cases hd : 0 < p.noDuplicate
  · have hnotmem : i ∉ p.recentQueue :=
      picked_not_mem_recent p g i hd ⟨hnd, hlen, hmem, hmirror⟩ hcand
    have hilt : i < p.recentBitmap.length :=
      picked_lt_recentBitmap p g i hwf hcand
    obtain ⟨hq, hb⟩ := pickUpdate_recent_pos p r i hd
    rw [StudentPool.RecentInv, hq, hb, pickUpdate_noDuplicate]
    by_cases hfull : p.noDuplicate ≤ p.recentQueue.length
    · simp only [if_pos hfull]
      cases hqe : p.recentQueue with
      | nil =>
        rw [hqe] at hfull
        simp at hfull
        omega
      | cons h0 t0 =>
        rw [hqe] at hnd hlen hmem hmirror hnotmem
        have hh0 : h0 ∉ t0 := (List.nodup_cons.mp hnd).1
        have ht0 : t0.Nodup := (List.nodup_cons.mp hnd).2
        have hih : i ≠ h0 ∧ i ∉ t0 := by
          constructor
          · intro he; exact hnotmem (he ▸ List.mem_cons_self _ _)
          · intro he; exact hnotmem (List.mem_cons_of_mem _ he)
        have hh0lt : h0 < p.recentBitmap.length :=
          hmem h0 (List.mem_cons_self _ _)
        simp only [List.tail_cons, List.headD_cons]
        refine ⟨?_, ?_, ?_, ?_⟩
        · rw [List.nodup_append]
          exact ⟨ht0, List.nodup_singleton i,
            fun a ha hai => hih.2 ((List.mem_singleton.mp hai) ▸ ha)⟩
        · simp only [List.length_append, List.length_singleton]
          simp at hlen
          omega
        · intro j hj
          simp only [List.length_set]
          rcases List.mem_append.mp hj with hjt | hji
          · exact hmem j (List.mem_cons_of_mem _ hjt)
          · rw [List.mem_singleton.mp hji]
            exact hilt
        · intro j hjlen
          simp only [List.length_set] at hjlen
          by_cases hji : j = i
          · subst hji
            rw [getD_set_self _ _ _ _ (by simpa using hilt)]
            simp
          · rw [getD_set_ne _ _ _ _ _ (fun he => hji he.symm)]
            by_cases hjh : j = h0
            · subst hjh
              rw [getD_set_self _ _ _ _ hh0lt]
              constructor
              · intro hf; cases hf
              · intro hmem'
                rcases List.mem_append.mp hmem' with hjt | hji'
                · exact absurd hjt hh0
                · exact absurd (List.mem_singleton.mp hji') (fun he =>
                    hih.1 he.symm)
            · rw [getD_set_ne _ _ _ _ _ (fun he => hjh he.symm)]
              rw [hmirror j hjlen]
              constructor
              · intro hjq
                rcases List.mem_cons.mp hjq with he | hjt
                · exact absurd he hjh
                · exact List.mem_append.mpr (Or.inl hjt)
              · intro hmem'
                rcases List.mem_append.mp hmem' with hjt | hji'
                · exact List.mem_cons_of_mem _ hjt
                · exact absurd (List.mem_singleton.mp hji') hji
    · simp only [if_neg hfull]
      refine ⟨?_, ?_, ?_, ?_⟩
      · rw [List.nodup_append]
        exact ⟨hnd, List.nodup_singleton i,
          fun a ha hai => hnotmem ((List.mem_singleton.mp hai) ▸ ha)⟩
      · simp only [List.length_append, List.length_singleton]
        omega
      · intro j hj
        simp only [List.length_set]
        rcases List.mem_append.mp hj with hjq | hji
        · exact hmem j hjq
        · rw [List.mem_singleton.mp hji]
          exact hilt
      · intro j hjlen
        simp only [List.length_set] at hjlen
        by_cases hji : j = i
        · subst hji
          rw [getD_set_self _ _ _ _ hilt]
          simp
        · rw [getD_set_ne _ _ _ _ _ (fun he => hji he.symm), hmirror j hjlen]
          constructor
          · intro hjq
            exact List.mem_append.mpr (Or.inl hjq)
          · intro hmem'
            rcases List.mem_append.mp hmem' with hjq | hji'
            · exact hjq
            · exact absurd (List.mem_singleton.mp hji') hji
  · obtain ⟨hq, hb⟩ := pickUpdate_recent_zero p r i hd
    rw [StudentPool.RecentInv, hq, hb, pickUpdate_noDuplicate]
    exact ⟨hnd, hlen, hmem, hmirror⟩

theorem pickIdx_recent_inv (p : StudentPool) (g : Gender) (r : Bool)
    (t : Nat) (hwf : p.WF) (hinv : p.RecentInv) :
    ((p.pickIdx g r t).2).RecentInv := by
  rcases pickIdx_inv p g r t with ⟨_, h2⟩ | ⟨i, _, hcand, h2⟩
  · rw [h2]; exact hinv
  · rw [h2]; exact pickUpdate_recent_inv p g r i hwf hinv hcand

theorem pickIdx_recent_survives (p : StudentPool) (g : Gender) (r : Bool)
    (tgt i : Nat) (l1 l2 : List Nat) (hinv : p.RecentInv)
    (hd : 0 < p.noDuplicate) (hq : p.recentQueue = l1 ++ i :: l2)
    (hroom : l2.length + 2 ≤ p.noDuplicate) :
    ∃ l1' l2', ((p.pickIdx g r tgt).2).recentQueue = l1' ++ i :: l2' ∧
      l2'.length ≤ l2.length + 1 := by
  rcases pickIdx_inv p g r tgt with ⟨_, h2⟩ | ⟨j, _, hcand, h2⟩
  · rw [h2, hq]
    exact ⟨l1, l2, rfl, by omega⟩
  · rw [h2, (pickUpdate_recent_pos p r j hd).1]
    by_cases hfull : p.noDuplicate ≤ p.recentQueue.length
    · rw [if_pos hfull, hq]
      have hL : l1.length + 1 + l2.length = p.recentQueue.length := by
        rw [hq]; simp; omega
      have hl1 : l1 ≠ [] := by
        intro he
        rw [he] at hL
        simp at hL
        have hle := hinv.2.1
        omega
      cases hl1e : l1 with
      | nil => exact absurd hl1e hl1
      | cons h0 l1t =>
        refine ⟨l1t, l2 ++ [j], ?_, by simp⟩
        simp
    · rw [if_neg hfull, hq]
      refine ⟨l1, l2 ++ [j], ?_, by simp⟩
      simp

theorem runPicks_recent_blocked (cs : List (Gender × Bool × Nat)) :
    ∀ (p : StudentPool) (i u : Nat) (l1 l2 : List Nat),
      p.WF → p.RecentInv → 0 < p.noDuplicate →
      p.recentQueue = l1 ++ i :: l2 →
      1 ≤ u → u + l2.length ≤ p.noDuplicate →
      (runPicks p cs).1.getD (u - 1) none ≠ some i := by
  induction cs with
  | nil =>
    intro p i u l1 l2 _ _ _ _ _ _ h
    rw [runPicks_nil] at h
    simp at h
  | cons c cs' ih =>
    intro p i u l1 l2 hwf hinv hd hq h1 hbound h
    rw [runPicks_cons] at h
    by_cases hu : u = 1
    · subst hu
      rw [Nat.sub_self, List.getD_cons_zero] at h
      rcases pickIdx_inv p c.1 c.2.1 c.2.2 with ⟨hnone, _⟩ |
        ⟨j, hsome, hcand, _⟩
      · rw [hnone] at h; cases h
      · rw [hsome] at h
        cases Option.some_inj.mp h
        have hrec := pickCandidates_not_recent p c.1 i hd hcand
        have hmemq : i ∈ p.recentQueue := by
          rw [hq]
          exact List.mem_append.mpr (Or.inr (List.mem_cons_self _ _))
        have hbnd := hinv.2.2.1 i hmemq
        have := (hinv.2.2.2 i hbnd).mpr hmemq
        rw [hrec] at this
        cases this
    · obtain ⟨v, rfl⟩ : ∃ v, u = v + 2 := ⟨u - 2, by omega⟩
      have hidx : v + 2 - 1 = v + 1 := by omega
      rw [hidx, List.getD_cons_succ] at h
      obtain ⟨l1', l2', hq', hlen'⟩ :=
        pickIdx_recent_survives p c.1 c.2.1 c.2.2 i l1 l2 hinv hd hq
          (by omega)
      have hd' : 0 < ((p.pickIdx c.1 c.2.1 c.2.2).2).noDuplicate := by
        rw [pickIdx_noDuplicate]; exact hd
      refine ih _ i (v + 1) l1' l2'
        (pickIdx_wf p c.1 c.2.1 c.2.2 hwf)
        (pickIdx_recent_inv p c.1 c.2.1 c.2.2 hwf hinv) hd' hq'
        (by omega) ?_ ?_
      · rw [pickIdx_noDuplicate]
        omega
      · simpa using h

theorem runPicks_window (cs : List (Gender × Bool × Nat)) :
    ∀ (p : StudentPool) (t u i : Nat), p.WF → p.RecentInv →
      0 < p.noDuplicate → t < u → u ≤ t + p.noDuplicate →
      (runPicks p cs).1.getD t none = some i →
      (runPicks p cs).1.getD u none ≠ some i := by
  induction cs with
  | nil =>
    intro p t u i _ _ _ _ _ ht
    rw [runPicks_nil] at ht
    simp at ht
  | cons c cs' ih =>
    intro p t u i hwf hinv hd htu huk ht hu
    rw [runPicks_cons] at ht hu
    cases t with
    | zero =>
      rw [List.getD_cons_zero] at ht
      obtain ⟨u', rfl⟩ : ∃ u', u = u' + 1 := ⟨u - 1, by omega⟩
      rw [List.getD_cons_succ] at hu
      rcases pickIdx_inv p c.1 c.2.1 c.2.2 with ⟨hnone, _⟩ |
        ⟨j, hsome, hcand, hupd⟩
      · rw [hnone] at ht; cases ht
      · rw [hsome] at ht
        cases Option.some_inj.mp ht
        have hq' := (pickUpdate_recent_pos p c.2.1 i hd).1
        have hblock := runPicks_recent_blocked cs'
          (p.pickIdx c.1 c.2.1 c.2.2).2 i (u' + 1)
          (if p.noDuplicate ≤ p.recentQueue.length then p.recentQueue.tail
            else p.recentQueue) []
          (pickIdx_wf p c.1 c.2.1 c.2.2 hwf)
          (pickIdx_recent_inv p c.1 c.2.1 c.2.2 hwf hinv)
          (by rw [pickIdx_noDuplicate]; exact hd)
          (by rw [hupd, hq'])
          (by omega)
          (by
            rw [pickIdx_noDuplicate]
            simp only [List.length_nil]
            omega)
        simp only [Nat.add_sub_cancel] at hblock
        exact hblock hu
    | succ t' =>
      obtain ⟨u', rfl⟩ : ∃ u', u = u' + 1 := ⟨u - 1, by omega⟩
      rw [List.getD_cons_succ] at ht hu
      refine ih _ t' u' i (pickIdx_wf p c.1 c.2.1 c.2.2 hwf)
        (pickIdx_recent_inv p c.1 c.2.1 c.2.2 hwf hinv)
        (by rw [pickIdx_noDuplicate]; exact hd) (by omega) ?_ ht hu
      rw [pickIdx_noDuplicate]
      omega

/-! ## Claim theorems -/

/-- C1: with a draw `k` below the candidate count, `pick` succeeds and
returns the display name of the participant sitting at the `k`-th set bit
(in index order) of the candidate bitmap
(`availableMask & genderMask`, minus `recentMask` when `noDuplicate > 0`);
that index is the unique one with `k` earlier set bits, and conversely
every candidate index is obtained from exactly the draw counting its
earlier set bits — the draw-to-candidate map is a bijection from `[0,n)`
onto the candidate set, so a uniform draw selects uniformly among the
candidates. -/
theorem pick_selects_kth_candidate (p : StudentPool) (g : Gender)
    (remove : Bool) (k : Nat) (hwf : p.WF)
    (hk : k < (p.pickCandidates g).count true) :
    ∃ i st,
      (p.pickCandidates g).getD i false = true ∧
      ((p.pickCandidates g).take i).count true = k ∧
      (∀ j, (p.pickCandidates g).getD j false = true →
        ((p.pickCandidates g).take j).count true = k → j = i) ∧
      p.students.get? i = some st ∧
      (p.pickIdx g remove k).1 = some i ∧
      (p.pick g remove k).1 = some st.display_name ∧
      (∀ j, (p.pickCandidates g).getD j false = true →
        ((p.pickCandidates g).take j).count true <
          (p.pickCandidates g).count true ∧
        (p.pickIdx g remove ((p.pickCandidates g).take j |>.count true)).1 =
          some j) := by
  obtain ⟨i, hf, hget, hcount, hpick⟩ := pickIdx_success p g remove k hk
  have hilen : i < p.students.length := by
    have := getD_true_lt_length _ _ hget
    rwa [pickCandidates_length p g hwf] at this
  obtain ⟨st, hst⟩ : ∃ st, p.students.get? i = some st := by
    exact ⟨p.students.get ⟨i, hilen⟩, List.get?_eq_get hilen⟩
  refine ⟨i, st, hget, hcount, ?_, hst, ?_, ?_, ?_⟩
  · intro j hj hcj
    have hj' := findKthTrue_of_getD _ j hj
    rw [hcj, hf] at hj'
    exact (Option.some_inj.mp hj').symm
  · rw [hpick]
  · have hst' : p.students[i]? = some st := by
      rwa [← List.get?_eq_getElem?]
    simp [StudentPool.pick, hpick, hst']
  · intro j hj
    refine ⟨take_count_lt _ _ hj, ?_⟩
    obtain ⟨i', hf', _, _, hpick'⟩ :=
      pickIdx_success p g remove _ (take_count_lt _ _ hj)
    have hij : i' = j := by
      have := findKthTrue_of_getD _ j hj
      rw [hf'] at this
      exact Option.some_inj.mp this
    rw [hpick', hij]

/-- Witness for C1: on the §8 scenario pool, the female filter's candidate
bitmap is `[F,F,T,T,F]`; the draw `k = 1` selects index 3 and returns
`"D"`. -/
theorem pick_selects_kth_candidate_witness :
    samplePool.WF ∧
    1 < (samplePool.pickCandidates .female).count true ∧
    ∃ i st,
      (samplePool.pickCandidates .female).getD i false = true ∧
      ((samplePool.pickCandidates .female).take i).count true = 1 ∧
      (∀ j, (samplePool.pickCandidates .female).getD j false = true →
        ((samplePool.pickCandidates .female).take j).count true = 1 → j = i) ∧
      samplePool.students.get? i = some st ∧
      (samplePool.pickIdx .female true 1).1 = some i ∧
      (samplePool.pick .female true 1).1 = some st.display_name ∧
      (∀ j, (samplePool.pickCandidates .female).getD j false = true →
        ((samplePool.pickCandidates .female).take j).count true <
          (samplePool.pickCandidates .female).count true ∧
        (samplePool.pickIdx .female true
            ((samplePool.pickCandidates .female).take j |>.count true)).1 =
          some j) :=
  ⟨by decide, by decide,
   pick_selects_kth_candidate samplePool .female true 1 (by decide) (by decide)⟩

/-- C2: `pick` raises `NoCandidates` (an `IndexError`, modelled as `none`)
exactly when the candidate bitmap is empty — the raise happens before any
state mutation, so the pool is returned unchanged — and with a non-empty
candidate bitmap and a valid draw it succeeds. -/
theorem pick_raises_iff_no_candidates (p : StudentPool) (g : Gender)
    (remove : Bool) (k : Nat) :
    ((p.pickCandidates g).count true = 0 →
      p.pick g remove k = (none, p)) ∧
    (k < (p.pickCandidates g).count true →
      ∃ name q, p.pick g remove k = (some name, q)) := by
  constructor
  · intro h
    simp [StudentPool.pick, pickIdx_empty p g remove k h]
  · intro h
    obtain ⟨i, _, _, _, hpick⟩ := pickIdx_success p g remove k h
    refine ⟨((p.students.get? i).map Student.display_name).getD "",
      p.pickUpdate remove i, ?_⟩
    simp [StudentPool.pick, hpick]

/-- Witness for C2: a fully exhausted pool raises and is unchanged; the
fresh sample pool succeeds. -/
theorem pick_raises_iff_no_candidates_witness :
    (((samplePool.restoreAvailableNames []).pickCandidates .female).count
        true = 0 ∧
      (samplePool.restoreAvailableNames []).pick .female true 0 =
        (none, samplePool.restoreAvailableNames [])) ∧
    (0 < (samplePool.pickCandidates .male).count true ∧
      ∃ name q, samplePool.pick .male true 0 = (some name, q)) :=
  ⟨⟨by decide,
    (pick_raises_iff_no_candidates (samplePool.restoreAvailableNames [])
      .female true 0).1 (by decide)⟩,
   ⟨by decide,
    (pick_raises_iff_no_candidates samplePool .male true 0).2 (by decide)⟩⟩

/-- C7: a gender-scoped `reset` ORs the gender mask into the available
bits and clears the gender's picked bits, leaving every bit of the
opposite gender and the female mask itself untouched; for every filter
value the recent queue and bitmap are cleared unconditionally. -/
theorem reset_gender_frame (p : StudentPool) (hwf : p.WF) :
    (∀ i, i < p.students.length →
      ((p.reset .female).bitAvailable.getD i false =
        (p.bitAvailable.getD i false || p.femaleBitmap.getD i false)) ∧
      ((p.reset .female).bitPicked.getD i false =
        (p.bitPicked.getD i false && !(p.femaleBitmap.getD i false))) ∧
      ((p.reset .male).bitAvailable.getD i false =
        (p.bitAvailable.getD i false || !(p.femaleBitmap.getD i false))) ∧
      ((p.reset .male).bitPicked.getD i false =
        (p.bitPicked.getD i false && p.femaleBitmap.getD i false)) ∧
      (p.femaleBitmap.getD i false = false →
        (p.reset .female).bitAvailable.getD i false =
          p.bitAvailable.getD i false ∧
        (p.reset .female).bitPicked.getD i false =
          p.bitPicked.getD i false) ∧
      (p.femaleBitmap.getD i false = true →
        (p.reset .male).bitAvailable.getD i false =
          p.bitAvailable.getD i false ∧
        (p.reset .male).bitPicked.getD i false =
          p.bitPicked.getD i false)) ∧
    (∀ g, (p.reset g).femaleBitmap = p.femaleBitmap ∧
      (p.reset g).recentQueue = [] ∧
      ∀ j, (p.reset g).recentBitmap.getD j false = false) := by
  obtain ⟨hf, ha, hp, hr⟩ := hwf
  constructor
  · intro i hi
    have hFav : (p.reset .female).bitAvailable.getD i false =
        (p.bitAvailable.getD i false || p.femaleBitmap.getD i false) := by
      show (bor p.bitAvailable p.femaleBitmap).getD i false = _
      exact getD_bor _ _ i (by omega) (by omega)
    have hFpk : (p.reset .female).bitPicked.getD i false =
        (p.bitPicked.getD i false && !(p.femaleBitmap.getD i false)) := by
      show (band p.bitPicked (bnot p.femaleBitmap)).getD i false = _
      rw [getD_band _ _ i (by omega) (by rw [length_bnot]; omega),
        getD_bnot _ i (by omega)]
    have hMav : (p.reset .male).bitAvailable.getD i false =
        (p.bitAvailable.getD i false || !(p.femaleBitmap.getD i false)) := by
      show (bor p.bitAvailable (bnot p.femaleBitmap)).getD i false = _
      rw [getD_bor _ _ i (by omega) (by rw [length_bnot]; omega),
        getD_bnot _ i (by omega)]
    have hMpk : (p.reset .male).bitPicked.getD i false =
        (p.bitPicked.getD i false && p.femaleBitmap.getD i false) := by
      show (band p.bitPicked (bnot (bnot p.femaleBitmap))).getD i false = _
      rw [getD_band _ _ i (by omega)
          (by rw [length_bnot, length_bnot]; omega),
        getD_bnot _ i (by rw [length_bnot]; omega),
        getD_bnot _ i (by omega), Bool.not_not]
    refine ⟨hFav, hFpk, hMav, hMpk, ?_, ?_⟩
    · intro hb
      rw [hFav, hFpk, hb]
      simp
    · intro hb
      rw [hMav, hMpk, hb]
      simp
  · intro g
    cases g <;> exact ⟨rfl, rfl, fun j => getD_setall_false _ j⟩

/-- Witness for C7: the frame conditions of `reset`, evaluated on the
sample pool. -/
theorem reset_gender_frame_witness :
    samplePool.WF ∧
    ((∀ i, i < samplePool.students.length →
      ((samplePool.reset .female).bitAvailable.getD i false =
        (samplePool.bitAvailable.getD i false ||
          samplePool.femaleBitmap.getD i false)) ∧
      ((samplePool.reset .female).bitPicked.getD i false =
        (samplePool.bitPicked.getD i false &&
          !(samplePool.femaleBitmap.getD i false))) ∧
      ((samplePool.reset .male).bitAvailable.getD i false =
        (samplePool.bitAvailable.getD i false ||
          !(samplePool.femaleBitmap.getD i false))) ∧
      ((samplePool.reset .male).bitPicked.getD i false =
        (samplePool.bitPicked.getD i false &&
          samplePool.femaleBitmap.getD i false)) ∧
      (samplePool.femaleBitmap.getD i false = false →
        (samplePool.reset .female).bitAvailable.getD i false =
          samplePool.bitAvailable.getD i false ∧
        (samplePool.reset .female).bitPicked.getD i false =
          samplePool.bitPicked.getD i false) ∧
      (samplePool.femaleBitmap.getD i false = true →
        (samplePool.reset .male).bitAvailable.getD i false =
          samplePool.bitAvailable.getD i false ∧
        (samplePool.reset .male).bitPicked.getD i false =
          samplePool.bitPicked.getD i false)) ∧
    (∀ g, (samplePool.reset g).femaleBitmap = samplePool.femaleBitmap ∧
      (samplePool.reset g).recentQueue = [] ∧
      ∀ j, (samplePool.reset g).recentBitmap.getD j false = false)) :=
  ⟨by decide, reset_gender_frame samplePool (by decide)⟩

/-- C8: `restoreAvailable(S)` followed by `getAvailableIdentities()`
yields exactly `S ∩ knownIdentities`; names unknown to the population are
silently dropped. -/
theorem restore_then_get_available (p : StudentPool) (names : List String)
    (hwf : p.WF) :
    (p.restoreAvailableNames names).getAvailableNames =
      names.toFinset ∩ (p.students.map Student.original_name).toFinset := by
  obtain ⟨hf, ha, hp, hr⟩ := hwf
  have hstud : (p.restoreAvailableNames names).students = p.students :=
    foldl_restore_students names _
  have hbase : ({ p with
      bitAvailable := setall p.bitAvailable false
      bitPicked := setall p.bitPicked true } : StudentPool).bitAvailable.length
      = p.students.length := by
    show (setall p.bitAvailable false).length = p.students.length
    rw [length_setall]
    exact ha
  ext nm
  rw [Finset.mem_inter, List.mem_toFinset, List.mem_toFinset,
    StudentPool.getAvailableNames, Finset.mem_image]
  constructor
  · rintro ⟨i, hi, hval⟩
    rw [Finset.mem_filter, Finset.mem_range] at hi
    obtain ⟨hilt, hbit⟩ := hi
    have hchar := (foldl_restore_avail names _ i hbase).mp hbit
    rcases hchar with hfalse | ⟨nm', hnm', hidx⟩
    · rw [show ({ p with
          bitAvailable := setall p.bitAvailable false
          bitPicked := setall p.bitPicked true } : StudentPool).bitAvailable =
          setall p.bitAvailable false from rfl,
        getD_setall_false] at hfalse
      cases hfalse
    · obtain ⟨st, hst, hname⟩ := nameToIdx_mem p.students nm' i hidx
      rw [hstud, hst] at hval
      simp only [Option.map_some', Option.getD_some] at hval
      rw [← hval, hname]
      exact ⟨hnm', List.mem_map.mpr ⟨st, List.get?_mem hst, hname⟩⟩
  · rintro ⟨hmemS, hmemK⟩
    obtain ⟨st, hstmem, hstname⟩ := List.mem_map.mp hmemK
    obtain ⟨i, hidx⟩ := nameToIdx_isSome p.students nm st hstmem hstname
    obtain ⟨st', hst', hname'⟩ := nameToIdx_mem p.students nm i hidx
    refine ⟨i, ?_, ?_⟩
    · rw [Finset.mem_filter, Finset.mem_range, hstud]
      refine ⟨nameToIdx_lt _ _ _ hidx, ?_⟩
      exact (foldl_restore_avail names _ i hbase).mpr
        (Or.inr ⟨nm, hmemS, hidx⟩)
    · rw [hstud, hst']
      simp only [Option.map_some', Option.getD_some]
      exact hname'

/-- Witness for C8: restoring `["B", "Z", "D"]` into the sample pool makes
exactly `{B, D}` available — the unknown `"Z"` is dropped. -/
theorem restore_then_get_available_witness :
    samplePool.WF ∧
    (samplePool.restoreAvailableNames ["B", "Z", "D"]).getAvailableNames =
      (["B", "Z", "D"] : List String).toFinset ∩
        (samplePool.students.map Student.original_name).toFinset :=
  ⟨by decide,
   restore_then_get_available samplePool ["B", "Z", "D"] (by decide)⟩

/-- C5: `ConfigStore.save` with a mapping whose canonical serialization is
byte-identical to the last saved content is a no-op (no file write, cache,
revision and hash untouched); with differing content it bumps the
mapping's revision field by exactly 1, writes the bumped mapping to the
live file via the temp-and-rename path, and updates cache and hash. -/
theorem save_atomic_dedupe_and_revision (st : ConfigStoreState) (c : Config) :
    (st.lastSaveHash = some (canonicalSerialize c) → saveAtomic st c = st) ∧
    (st.lastSaveHash ≠ some (canonicalSerialize c) →
      saveAtomic st c =
        { cache := some (cfgSet c "_revision" (.jint (getRevision c + 1)))
          lastSaveHash :=
            some (canonicalSerialize
              (cfgSet c "_revision" (.jint (getRevision c + 1))))
          file := some (cfgSet c "_revision" (.jint (getRevision c + 1))) } ∧
      getRevision (cfgSet c "_revision" (.jint (getRevision c + 1))) =
        getRevision c + 1) := by
  constructor
  · intro h
    simp [saveAtomic, h]
  · intro h
    refine ⟨?_, getRevision_cfgSet c _⟩
    simp only [saveAtomic]
    rw [if_neg (fun he => h he.symm)]

/-- Witness for C5: a no-op save at matching hash, and a revision bump at
a fresh store. -/
theorem save_atomic_dedupe_and_revision_witness :
    (saveAtomic
        ⟨none, some (canonicalSerialize [("_revision", JVal.jint 3)]), none⟩
        [("_revision", JVal.jint 3)] =
      ⟨none, some (canonicalSerialize [("_revision", JVal.jint 3)]), none⟩) ∧
    (saveAtomic ⟨none, none, none⟩ [("_revision", JVal.jint 0)] =
        { cache := some (cfgSet [("_revision", JVal.jint 0)] "_revision"
            (.jint (getRevision [("_revision", JVal.jint 0)] + 1)))
          lastSaveHash := some (canonicalSerialize
            (cfgSet [("_revision", JVal.jint 0)] "_revision"
              (.jint (getRevision [("_revision", JVal.jint 0)] + 1))))
          file := some (cfgSet [("_revision", JVal.jint 0)] "_revision"
            (.jint (getRevision [("_revision", JVal.jint 0)] + 1))) } ∧
      getRevision (cfgSet [("_revision", JVal.jint 0)] "_revision"
          (.jint (getRevision [("_revision", JVal.jint 0)] + 1))) =
        getRevision [("_revision", JVal.jint 0)] + 1) :=
  ⟨(save_atomic_dedupe_and_revision
      ⟨none, some (canonicalSerialize [("_revision", JVal.jint 3)]), none⟩
      [("_revision", JVal.jint 3)]).1 rfl,
   (save_atomic_dedupe_and_revision ⟨none, none, none⟩
      [("_revision", JVal.jint 0)]).2 (by decide)⟩

/-- C9: `request_save` flushes immediately (timer stopped, pending set
emptied, flush executed with the merged reasons) exactly when the merged
pending set exceeds 5 entries; otherwise no flush happens at request time
and the fixed-delay debounce timer is restarted unconditionally. -/
theorem request_save_overflow_or_debounce (s : SaverState)
    (reasons : List String) :
    (5 < (requestMerged s reasons).card →
      requestSave s reasons =
        { saveQueue := ∅
          timer := { s.timer with active := false }
          flushed := s.flushed ++ [requestMerged s reasons] }) ∧
    ((requestMerged s reasons).card ≤ 5 →
      requestSave s reasons =
        { saveQueue := requestMerged s reasons
          timer := { active := true, delay := CONFIG_SAVE_DELAY }
          flushed := s.flushed }) := by
  constructor
  · intro h
    have hne : requestMerged s reasons ≠ ∅ := by
      intro he
      rw [he] at h
      simp at h
    simp [requestSave, h, flushAllSaves, hne, DebounceTimer.stop]
  · intro h
    have h' : ¬ 5 < (requestMerged s reasons).card := by omega
    simp [requestSave, h', DebounceTimer.stop, DebounceTimer.start]

/-- Witness for C9: an overflowing queue flushes at once; a small queue
only restarts the timer. -/
theorem request_save_overflow_or_debounce_witness :
    (requestSave ⟨{"a", "b", "c", "d", "e"}, ⟨false, 0⟩, []⟩ ["f"] =
      { saveQueue := ∅
        timer := { (⟨false, 0⟩ : DebounceTimer) with active := false }
        flushed := [] ++ [requestMerged ⟨{"a", "b", "c", "d", "e"}, ⟨false, 0⟩, []⟩ ["f"]] }) ∧
    (requestSave ⟨{"a"}, ⟨true, 300⟩, []⟩ ["b"] =
      { saveQueue := requestMerged ⟨{"a"}, ⟨true, 300⟩, []⟩ ["b"]
        timer := { active := true, delay := CONFIG_SAVE_DELAY }
        flushed := [] }) :=
  ⟨(request_save_overflow_or_debounce
      ⟨{"a", "b", "c", "d", "e"}, ⟨false, 0⟩, []⟩ ["f"]).1 (by decide),
   (request_save_overflow_or_debounce ⟨{"a"}, ⟨true, 300⟩, []⟩ ["b"]).2
      (by decide)⟩

/-- C10: on a successful decode, `load` itself saves the default-merged
mapping (advancing the persisted revision and the hash), while the mapping
it returns — and that `load_cached` installs as the cache — keeps the
un-incremented revision, so a fresh load leaves the cached revision one
behind the persisted one. -/
theorem load_internal_saves_and_cache_lags (st : ConfigStoreState)
    (c m : Config) (hfile : st.file = some c) (hcache : st.cache = none)
    (hm : m = mergeConfigs DEFAULT_CONFIG c)
    (hhash : st.lastSaveHash ≠ some (canonicalSerialize m)) :
    (loadCached st).1 = m ∧
    ((loadCached st).2).cache = some m ∧
    ((loadCached st).2).file =
      some (cfgSet m "_revision" (.jint (getRevision m + 1))) ∧
    ((loadCached st).2).lastSaveHash =
      some (canonicalSerialize
        (cfgSet m "_revision" (.jint (getRevision m + 1)))) ∧
    getRevision (((loadCached st).2).file.getD []) =
      getRevision (((loadCached st).2).cache.getD []) + 1 := by
  subst hm
  have hsave := (save_atomic_dedupe_and_revision st
    (mergeConfigs DEFAULT_CONFIG c)).2 hhash
  simp only [loadCached, hcache, loadInternal, hfile, hsave.1]
  simp [getRevision_cfgSet]

/-- Witness for C10: a freshly started store with a persisted revision 4
loads revision 4 into the cache while rewriting the file at revision 5. -/
theorem load_internal_saves_and_cache_lags_witness :
    (loadCached ⟨none, none, some [("_revision", JVal.jint 4)]⟩).1 =
      mergeConfigs DEFAULT_CONFIG [("_revision", JVal.jint 4)] ∧
    ((loadCached ⟨none, none, some [("_revision", JVal.jint 4)]⟩).2).cache =
      some (mergeConfigs DEFAULT_CONFIG [("_revision", JVal.jint 4)]) ∧
    ((loadCached ⟨none, none, some [("_revision", JVal.jint 4)]⟩).2).file =
      some (cfgSet (mergeConfigs DEFAULT_CONFIG [("_revision", JVal.jint 4)])
        "_revision"
        (.jint (getRevision
          (mergeConfigs DEFAULT_CONFIG [("_revision", JVal.jint 4)]) + 1))) ∧
    ((loadCached ⟨none, none, some [("_revision", JVal.jint 4)]⟩).2).lastSaveHash =
      some (canonicalSerialize
        (cfgSet (mergeConfigs DEFAULT_CONFIG [("_revision", JVal.jint 4)])
          "_revision"
          (.jint (getRevision
            (mergeConfigs DEFAULT_CONFIG [("_revision", JVal.jint 4)]) + 1)))) ∧
    getRevision (((loadCached
        ⟨none, none, some [("_revision", JVal.jint 4)]⟩).2).file.getD []) =
      getRevision (((loadCached
        ⟨none, none, some [("_revision", JVal.jint 4)]⟩).2).cache.getD []) + 1 :=
  load_internal_saves_and_cache_lags
    ⟨none, none, some [("_revision", JVal.jint 4)]⟩
    [("_revision", JVal.jint 4)]
    (mergeConfigs DEFAULT_CONFIG [("_revision", JVal.jint 4)])
    rfl rfl rfl (by decide)

/-- C3: in any sequence of `pick` calls with `removeOnPick = true` on one
pool (no reset or restore in between), no identity is returned twice:
returned indices — and, identities being unique, identities — are
pairwise distinct, and a returned index's available bit stays cleared and
its picked bit stays set through the end of the run. -/
theorem pick_remove_no_repeat (p : StudentPool)
    (calls : List (Gender × Bool × Nat)) (hwf : p.WF)
    (hnodup : (p.students.map Student.original_name).Nodup)
    (hrem : ∀ c ∈ calls, c.2.1 = true) :
    (∀ t u i j, t < u →
      (runPicks p calls).1.getD t none = some i →
      (runPicks p calls).1.getD u none = some j →
      i ≠ j ∧
      (p.students.map Student.original_name).getD i "" ≠
        (p.students.map Student.original_name).getD j "") ∧
    (∀ t i, (runPicks p calls).1.getD t none = some i →
      ((runPicks p calls).2).bitAvailable.getD i true = false ∧
      ((runPicks p calls).2).bitPicked.getD i false = true) := by
  constructor
  · intro t u i j htu ht hu
    have hji : j ≠ i := runPicks_distinct calls p hwf hrem t u i j htu ht hu
    have hij : i ≠ j := fun he => hji he.symm
    refine ⟨hij, ?_⟩
    have hi : i < p.students.length := runPicks_result_lt calls p hwf t i ht
    have hj : j < p.students.length := runPicks_result_lt calls p hwf u j hu
    have hi' : i < (p.students.map Student.original_name).length := by
      rw [List.length_map]
      exact hi
    have hj' : j < (p.students.map Student.original_name).length := by
      rw [List.length_map]
      exact hj
    rw [getD_eq_getElem_of_lt _ i "" hi', getD_eq_getElem_of_lt _ j "" hj']
    intro he
    exact hij (congrArg Fin.val (hnodup.get_inj_iff.mp he))
  · intro t i ht
    exact runPicks_marks calls p hwf hrem t i ht

/-- Witness for C3: two removing picks on the sample pool return indices
0 and 1 — distinct identities — and leave both unavailable and picked. -/
theorem pick_remove_no_repeat_witness :
    samplePool.WF ∧
    (samplePool.students.map Student.original_name).Nodup ∧
    (∀ c ∈ ([(Gender.unknown, true, 0), (Gender.unknown, true, 0)] :
        List (Gender × Bool × Nat)), c.2.1 = true) ∧
    ((∀ t u i j, t < u →
      (runPicks samplePool
        [(Gender.unknown, true, 0), (Gender.unknown, true, 0)]).1.getD t
          none = some i →
      (runPicks samplePool
        [(Gender.unknown, true, 0), (Gender.unknown, true, 0)]).1.getD u
          none = some j →
      i ≠ j ∧
      (samplePool.students.map Student.original_name).getD i "" ≠
        (samplePool.students.map Student.original_name).getD j "") ∧
    (∀ t i, (runPicks samplePool
        [(Gender.unknown, true, 0), (Gender.unknown, true, 0)]).1.getD t
          none = some i →
      ((runPicks samplePool
        [(Gender.unknown, true, 0), (Gender.unknown, true, 0)]).2).bitAvailable.getD
          i true = false ∧
      ((runPicks samplePool
        [(Gender.unknown, true, 0), (Gender.unknown, true, 0)]).2).bitPicked.getD
          i false = true)) :=
  ⟨by decide, by decide, by decide,
   pick_remove_no_repeat samplePool
     [(Gender.unknown, true, 0), (Gender.unknown, true, 0)]
     (by decide) (by decide) (by decide)⟩

/-- C4: with `noDuplicate = k > 0` and `removeOnPick = false`, an index
returned at step `t` is not returned again at any step in `(t, t+k]`, and
the recent-window update of every successful pick is FIFO: the oldest
queue entry is dequeued exactly when the queue is at capacity, then the
picked index is enqueued at the back. -/
theorem pick_no_duplicate_window (p : StudentPool)
    (calls : List (Gender × Bool × Nat)) (k : Nat) (hwf : p.WF)
    (hinv : p.RecentInv) (hk : p.noDuplicate = k) (hkpos : 0 < k)
    (_hrem : ∀ c ∈ calls, c.2.1 = false) :
    (∀ t u i, t < u → u ≤ t + k →
      (runPicks p calls).1.getD t none = some i →
      (runPicks p calls).1.getD u none ≠ some i) ∧
    (∀ (q : StudentPool) (g : Gender) (r : Bool) (tgt i : Nat),
      0 < q.noDuplicate → (q.pickIdx g r tgt).1 = some i →
      ((q.pickIdx g r tgt).2).recentQueue =
        (if q.noDuplicate ≤ q.recentQueue.length then q.recentQueue.tail
          else q.recentQueue) ++ [i]) := by
  constructor
  · intro t u i htu huk ht
    exact runPicks_window calls p t u i hwf hinv (by omega) htu
      (by omega) ht
  · intro q g r tgt i hd hsome
    rcases pickIdx_inv q g r tgt with ⟨hnone, _⟩ | ⟨i', hsome', _, hupd⟩
    · rw [hnone] at hsome; cases hsome
    · rw [hsome'] at hsome
      cases Option.some_inj.mp hsome
      rw [hupd]
      exact (pickUpdate_recent_pos q r i hd).1

/-- Witness for C4: three non-removing picks on the two-wide window pool
return indices 0, 1, 2 — no index within two steps of itself. -/
theorem pick_no_duplicate_window_witness :
    samplePool2.WF ∧ samplePool2.RecentInv ∧ samplePool2.noDuplicate = 2 ∧
    (0 : Nat) < 2 ∧
    (∀ c ∈ ([(Gender.unknown, false, 0), (Gender.unknown, false, 0),
        (Gender.unknown, false, 0)] : List (Gender × Bool × Nat)),
      c.2.1 = false) ∧
    ((∀ t u i, t < u → u ≤ t + 2 →
      (runPicks samplePool2
        [(Gender.unknown, false, 0), (Gender.unknown, false, 0),
         (Gender.unknown, false, 0)]).1.getD t none = some i →
      (runPicks samplePool2
        [(Gender.unknown, false, 0), (Gender.unknown, false, 0),
         (Gender.unknown, false, 0)]).1.getD u none ≠ some i) ∧
    (∀ (q : StudentPool) (g : Gender) (r : Bool) (tgt i : Nat),
      0 < q.noDuplicate → (q.pickIdx g r tgt).1 = some i →
      ((q.pickIdx g r tgt).2).recentQueue =
        (if q.noDuplicate ≤ q.recentQueue.length then q.recentQueue.tail
          else q.recentQueue) ++ [i])) :=
  ⟨by decide, by decide, by decide, by decide, by decide,
   pick_no_duplicate_window samplePool2
     [(Gender.unknown, false, 0), (Gender.unknown, false, 0),
      (Gender.unknown, false, 0)] 2
     (by decide) (by decide) (by decide) (by decide) (by decide)⟩

/-- Counterexample to C6 as stated: with an empty roster and a female
file containing `"Z"`, the full roster yields zero participants, yet
construction fails with `SubsetViolation {"Z"}` — not with
`EmptyPopulation` as the claim's first conjunct requires (the subset
check runs before the pool constructor's empty check). -/
theorem load_student_data_empty_roster_counterexample :
    parseStudentLines [] .unknown = [] ∧
    subsetViolationSet (loadStudentData [] ["Z"]) =
      some ({"Z"} : Finset String) ∧
    isEmptyPopulationError (loadStudentData [] ["Z"]) = false := by
  refine ⟨rfl, ?_, ?_⟩ <;> decide

/-- C6 (amended): construction fails with `SubsetViolation` listing
exactly `femaleIdentities − allIdentities` whenever that set is non-empty
— this check takes priority — and fails with `EmptyPopulation` when the
roster yields zero participants and the subset check passes; a successful
build implies a non-empty roster and an empty invalid set, so an unknown
female identity is never silently dropped. -/
theorem load_student_data_validation (allLines femaleLines : List String) :
    (invalidFemales allLines femaleLines ≠ ∅ →
      loadStudentData allLines femaleLines =
        .error (.subsetViolation (invalidFemales allLines femaleLines))) ∧
    (invalidFemales allLines femaleLines = ∅ →
      parseStudentLines allLines .unknown = [] →
      loadStudentData allLines femaleLines = .error .emptyPopulation) ∧
    (∀ pool, loadStudentData allLines femaleLines = .ok pool →
      invalidFemales allLines femaleLines = ∅ ∧
      parseStudentLines allLines .unknown ≠ [] ∧
      pool.students = parseStudentLines allLines .unknown) := by
  refine ⟨?_, ?_, ?_⟩
  · intro h
    simp [loadStudentData, h]
  · intro h he
    simp [loadStudentData, h, he, StudentPool.init]
  · intro pool hok
    by_cases h : invalidFemales allLines femaleLines = ∅
    · have hne : parseStudentLines allLines .unknown ≠ [] := by
        intro he
        rw [show loadStudentData allLines femaleLines =
            .error .emptyPopulation by
          simp [loadStudentData, h, he, StudentPool.init]] at hok
        cases hok
      refine ⟨h, hne, ?_⟩
      have hinit : StudentPool.init (parseStudentLines allLines .unknown)
          (parseStudentLines femaleLines .female) 0 = some pool := by
        simp only [loadStudentData, if_pos h] at hok
        cases hinit' : StudentPool.init (parseStudentLines allLines .unknown)
            (parseStudentLines femaleLines .female) 0 with
        | none => rw [hinit'] at hok; cases hok
        | some q =>
          rw [hinit'] at hok
          cases hok
          rfl
      unfold StudentPool.init at hinit
      rw [if_neg (by simpa [List.isEmpty_iff] using hne)] at hinit
      cases hinit
      rfl
    · rw [show loadStudentData allLines femaleLines =
          .error (.subsetViolation (invalidFemales allLines femaleLines)) by
        simp [loadStudentData, h]] at hok
      cases hok

/-- Witness for C6 (amended): a roster missing `"Z"` fails with
`SubsetViolation {"Z"}`; an empty but consistent pair of files fails with
`EmptyPopulation`. -/
theorem load_student_data_validation_witness :
    (invalidFemales ["A"] ["Z"] ≠ ∅ ∧
      loadStudentData ["A"] ["Z"] =
        .error (.subsetViolation (invalidFemales ["A"] ["Z"]))) ∧
    (invalidFemales [] [] = ∅ ∧ parseStudentLines [] .unknown = [] ∧
      loadStudentData [] [] = .error .emptyPopulation) :=
  ⟨⟨by decide, (load_student_data_validation ["A"] ["Z"]).1 (by decide)⟩,
   ⟨by decide, rfl,
    (load_student_data_validation [] []).2.1 (by decide) rfl⟩⟩

end ClassNamePicker
